import Mathlib

/-!
Verification development for the ar-io-network-analyzer repository.

The TypeScript sources embedded here:
* `NodeCrawler` (`normalizeAddress`, `isValidIPv4`, `processNode`, `crawl`) —
  the Arweave node-network crawler.
* `PeerGraph` (`buildGraph`, `markBidirectionalEdges`, degree queries,
  `calculateDensity`, clustering coefficients, Brandes betweenness
  centrality, `findConnectedComponents`).

Conventions of the embedding:
* JavaScript numbers are modelled as `Int`/`Nat` where the code only holds
  integers, and as `ℚ` where the code divides.  The metric code never
  produces `NaN`/`Infinity` on the inputs it touches (divisors are
  positive wherever a division is reached), so `ℚ` is adequate there;
  Brandes' `sigma.get(v)! / sigma.get(w)!` only runs with `sigma w ≥ 1`.
* A JavaScript `Map` read through `.get` is a function into `Option`;
  a `Map` that the code also iterates (the node registry) is an
  association list in insertion order, which is exactly the iteration
  order of a JavaScript `Map`.
* A JavaScript `Set` is a duplicate-free list in insertion order.
* `parseInt` (radix auto-detection, leading-whitespace skip, sign,
  longest-numeral-prefix) is modelled by `parseIntChars`.
* The crawler's worker pool is modelled by the sequential (single-worker)
  execution: the source's pop-and-mark and the whole per-peer bookkeeping
  block are synchronous (atomic) sections, and `concurrency = 1` is a
  valid configuration of the program.  Wall-clock timestamps are
  abstracted to `0`; network I/O is an oracle passed as an argument.
-/

/-! ### JavaScript string and number primitives -/

/-- Longest-common-prefix test on character lists (`regex ^...` anchoring). -/
def leadMatch : List Char → List Char → Bool
  | [], _ => true
  | _ :: _, [] => false
  | a :: as, b :: bs => a = b && leadMatch as bs

/-- `String.prototype.split` with a one-character separator. -/
def splitOnChar (sep : Char) : List Char → List (List Char)
  | [] => [[]]
  | c :: rest =>
    let r := splitOnChar sep rest
    if c = sep then [] :: r
    else
      match r with
      | h :: t => (c :: h) :: t
      | [] => [[c]]

/-- Value of a decimal numeral. -/
def decDigitsVal (ds : List Char) : Int :=
  ds.foldl (fun a c => a * 10 + ((c.toNat : Int) - 48)) 0

/-- Is this a hexadecimal digit? -/
def isHexDigitJS (c : Char) : Bool :=
  c.isDigit || ('a' ≤ c && c ≤ 'f') || ('A' ≤ c && c ≤ 'F')

/-- Value of one hexadecimal digit. -/
def hexDigitVal (c : Char) : Int :=
  if c.isDigit then (c.toNat : Int) - 48
  else if 'a' ≤ c && c ≤ 'f' then (c.toNat : Int) - 87
  else (c.toNat : Int) - 55

/-- Value of a hexadecimal numeral. -/
def hexDigitsVal (ds : List Char) : Int :=
  ds.foldl (fun a c => a * 16 + hexDigitVal c) 0

/-- JavaScript `parseInt(s)` with the default radix: skip leading
whitespace, optional sign, auto-detect a `0x`/`0X` prefix, then read the
longest numeral prefix; `none` models `NaN` (no digits at all). -/
def parseIntChars (cs : List Char) : Option Int :=
  let cs1 := cs.dropWhile (fun c => c.isWhitespace)
  let signAndRest : Int × List Char :=
    match cs1 with
    | c :: rest => if c = '+' then (1, rest) else if c = '-' then (-1, rest) else (1, cs1)
    | [] => (1, [])
  let sign := signAndRest.1
  let cs2 := signAndRest.2
  match cs2 with
  | c0 :: c1 :: rest =>
    if c0 = '0' ∧ (c1 = 'x' ∨ c1 = 'X') then
      let ds := rest.takeWhile isHexDigitJS
      if ds = [] then none else some (sign * hexDigitsVal ds)
    else
      let ds := cs2.takeWhile (fun c => c.isDigit)
      if ds = [] then none else some (sign * decDigitsVal ds)
  | _ =>
    let ds := cs2.takeWhile (fun c => c.isDigit)
    if ds = [] then none else some (sign * decDigitsVal ds)

/-- `parseInt` on a `String`. -/
def parseIntStr (s : String) : Option Int :=
  parseIntChars s.toList

/-- First-occurrence deduplication: the contents of `new Set(list)` in
iteration order. -/
def jsDedupGo (seen : List String) : List String → List String
  | [] => []
  | a :: as => if a ∈ seen then jsDedupGo seen as else a :: jsDedupGo (a :: seen) as

/-- `new Set(list)` as a duplicate-free list in insertion order. -/
def jsDedup (l : List String) : List String := jsDedupGo [] l

/-- `Set.prototype.add`: append unless already present. -/
def setAdd (s : List String) (x : String) : List String :=
  if x ∈ s then s else s ++ [x]

/-! ### Address normalizer (`NodeCrawler.normalizeAddress`, `isValidIPv4`) -/

/-- The characters of the default-port suffix text `1984`. -/
def defaultPortCs : List Char := ['1', '9', '8', '4']

/-- The scheme prefixes the source strips (`^https?://` — nothing else). -/
def httpPreCs : List Char := ['h', 't', 't', 'p', ':', '/', '/']

/-- `https://` as characters. -/
def httpsPreCs : List Char := ['h', 't', 't', 'p', 's', ':', '/', '/']

/-- `peer.replace(/^https?:\/\//, '')`. -/
def stripProto (cs : List Char) : List Char :=
  if leadMatch httpsPreCs cs then cs.drop 8
  else if leadMatch httpPreCs cs then cs.drop 7
  else cs

/-- `NodeCrawler.isValidIPv4`: split on dots into exactly four parts, each
`parseInt`-ing to a value in `0..255`. -/
def isValidIPv4 (cs : List Char) : Bool :=
  let parts := splitOnChar '.' cs
  parts.length = 4 && parts.all (fun p =>
    match parseIntChars p with
    | some n => decide (0 ≤ n) && decide (n ≤ 255)
    | none => false)

/-- The bracketed-IPv6 branch: the regex `^\[([^\]]+)\]:?(\d+)?$` with the
default port applied when the port group is absent. -/
def ipv6Norm (cs : List Char) : Option (List Char) :=
  match cs with
  | '[' :: rest =>
    let inner := rest.takeWhile (fun c => c ≠ ']')
    let after := rest.dropWhile (fun c => c ≠ ']')
    match after with
    | ']' :: tail =>
      if inner = [] then none
      else
        let tail2 := match tail with
          | ':' :: t => t
          | _ => tail
        if tail2 = [] then some ('[' :: inner ++ ']' :: ':' :: defaultPortCs)
        else if tail2.all (fun c => c.isDigit) then
          some ('[' :: inner ++ ']' :: ':' :: tail2)
        else none
    | _ => none
  | _ => none

/-- `NodeCrawler.normalizeAddress`: empty input is falsy (`null`); strip the
`http(s)://` prefix; bracketed strings go through the IPv6 regex; otherwise
split on `:` into an IPv4 part and an optional port part. -/
def normalizeAddress (peer : String) : Option String :=
  let cs0 := peer.toList
  if cs0 = [] then none
  else
    let cs := stripProto cs0
    if cs.contains '[' then (ipv6Norm cs).map (fun r => ⟨r⟩)
    else
      match splitOnChar ':' cs with
      | [ip] => if isValidIPv4 ip then some ⟨ip ++ ':' :: defaultPortCs⟩ else none
      | [ip, p] =>
        if isValidIPv4 ip ∧ (parseIntChars p).isSome then some ⟨ip ++ ':' :: p⟩
        else none
      | _ => none

/-! ### Data model (`arweave-types.ts`) -/

/-- The `/info` payload (`ArweaveNodeInfo`). -/
structure ArweaveNodeInfo where
  network : String
  version : Nat
  release : Nat
  height : Nat
  current : String
  blocks : Nat
  peers : Nat
  queue_length : Nat
  node_state_latency : Nat
deriving DecidableEq

/-- A discovered node (`ArweaveNode`).  Wall-clock fields are abstracted
to constants; optional protocol metadata mirrors the source fields. -/
structure ArweaveNode where
  ip : String
  port : Int
  address : String
  version : Option Nat := none
  release : Option Nat := none
  height : Option Nat := none
  network : Option String := none
  blocks : Option Nat := none
  peers : Option Nat := none
  queueLength : Option Nat := none
  nodeStateLatency : Option Nat := none
  discoveredAt : Nat := 0
  responseTime : Option Nat := none
  isResponsive : Bool
  lastSeen : Option Nat := none
  inboundPeers : List String
  outboundPeers : List String
deriving DecidableEq

/-- A directed peer observation (`PeerEdge`). -/
structure PeerEdge where
  source : String
  target : String
  discoveredAt : Nat
  bidirectional : Bool
deriving DecidableEq

/-- Crawler configuration (`CrawlerConfig`).  `timeout`, `concurrency` and
`delayBetweenRequests` only shape I/O pacing, which the oracle abstracts. -/
structure CrawlerConfig where
  seedNodes : List String
  maxNodes : Nat
  timeout : Nat
  concurrency : Nat
  delayBetweenRequests : Nat
  retries : Nat

/-- The network, as the crawler can observe it: `/info` per (ip, port,
attempt index) and `/peers` per (ip, port).  `none` models a failed or
unparsable `/info` response; a failed `/peers` fetch is the empty list,
exactly the source's resolution values. -/
structure NetworkOracle where
  infoAt : String → Int → Nat → Option ArweaveNodeInfo
  peersAt : String → Int → List String

/-! ### Node discovery crawler (`NodeCrawler`) -/

/-- Crawler state: the shared frontier (`queue`), `visited` set, node
registry (insertion-ordered association list, a JavaScript `Map`), edge
list and counters.  `processed` is instrumentation absent from the source:
it logs one entry per `processNode` invocation, so that
"an address is processed at most once" is statable. -/
structure CrawlState where
  visited : List String
  queue : List String
  nodes : List (String × ArweaveNode)
  edges : List PeerEdge
  responsiveCount : Nat
  failedCount : Nat
  processed : List String

/-- `Map.prototype.set` on the node registry: replace in place if the key
exists, otherwise append. -/
def jsMapSet (ns : List (String × ArweaveNode)) (k : String) (v : ArweaveNode) :
    List (String × ArweaveNode) :=
  if (ns.find? (fun p => p.1 = k)).isSome then
    ns.map (fun p => if p.1 = k then (k, v) else p)
  else ns ++ [(k, v)]

/-- `existingPeer.inboundPeers.push(address)` when the target is already
registered (pointwise update of the registry entry; no-op otherwise). -/
def pushInbound (ns : List (String × ArweaveNode)) (k addr : String) :
    List (String × ArweaveNode) :=
  ns.map (fun p =>
    if p.1 = k then (p.1, { p.2 with inboundPeers := p.2.inboundPeers ++ [addr] }) else p)

/-- The retry loop around `fetchNodeInfo`: first success among attempts
`0..retries` (the exponential-backoff delays do not affect the value). -/
def retryInfo (o : NetworkOracle) (ip : String) (port : Int) (retries : Nat) :
    Option ArweaveNodeInfo :=
  (List.range (retries + 1)).foldl
    (fun acc a =>
      match acc with
      | some i => some i
      | none => o.infoAt ip port a) none

/-- `parseInt(portStr) || DEFAULT_PORT`: `NaN` and `0` are falsy. -/
def jsOrDefaultPort : Option Int → Int
  | none => 1984
  | some n => if n = 0 then 1984 else n

/-- The port `processNode` computes from an address
(`address.split(':')`, `parseInt(portStr) || DEFAULT_PORT`). -/
def portOfAddress (address : String) : Int :=
  let parts := splitOnChar ':' address.toList
  jsOrDefaultPort (match parts[1]? with
    | none => none
    | some cs => parseIntChars cs)

/-- Does an address survive `processNode`'s port-range guard? -/
def portOk (address : String) : Bool :=
  decide (1 ≤ portOfAddress address) && decide (portOfAddress address ≤ 65535)

/-- The per-peer block of `processNode`: record the edge unconditionally,
update the target's inbound list when registered, and enqueue the peer
only if unvisited, under the node budget, and under the `3 × maxNodes`
frontier cap. -/
def processPeer (cfg : CrawlerConfig) (address : String) (s : CrawlState)
    (peerAddr : String) : CrawlState :=
  match normalizeAddress peerAddr with
  | none => s
  | some np =>
    let s1 := { s with
      edges := s.edges ++
        [{ source := address, target := np, discoveredAt := 0, bidirectional := false }]
      nodes := pushInbound s.nodes np address }
    if np ∉ s1.visited ∧ s1.nodes.length < cfg.maxNodes ∧
        s1.queue.length < cfg.maxNodes * 3 then
      { s1 with queue := s1.queue ++ [np] }
    else s1

/-- `NodeCrawler.processNode`: parse and range-check the port (silent
early return when out of range), fetch `/info` with retries, on success
fetch `/peers` and run the per-peer block, and finally register the node
(responsive or not). -/
def processNode (cfg : CrawlerConfig) (o : NetworkOracle) (st : CrawlState)
    (address : String) : CrawlState :=
  let parts := splitOnChar ':' address.toList
  let ip : String := ⟨parts.headD []⟩
  let port := portOfAddress address
  if port < 1 ∨ port > 65535 then st
  else
    let node0 : ArweaveNode :=
      { ip := ip, port := port, address := address, isResponsive := false,
        inboundPeers := [], outboundPeers := [] }
    match retryInfo o ip port cfg.retries with
    | none =>
      { st with
        failedCount := st.failedCount + 1
        nodes := jsMapSet st.nodes address node0 }
    | some info =>
      let node1 : ArweaveNode :=
        { node0 with
          isResponsive := true
          version := some info.version
          release := some info.release
          height := some info.height
          network := some info.network
          blocks := some info.blocks
          peers := some info.peers
          queueLength := some info.queue_length
          nodeStateLatency := some info.node_state_latency
          lastSeen := some 0 }
      let st1 := { st with responsiveCount := st.responsiveCount + 1 }
      let peers := o.peersAt ip port
      if peers = [] then { st1 with nodes := jsMapSet st1.nodes address node1 }
      else
        let node2 := { node1 with outboundPeers := peers }
        let st2 := peers.foldl (processPeer cfg address) st1
        { st2 with nodes := jsMapSet st2.nodes address node2 }

/-- The atomic pop-and-mark of the worker loop: shift queue entries until
an unvisited one appears, mark it visited, and return it with the updated
visited set and queue (`none` when the frontier is exhausted). -/
def popNextGo : List String → List String → Option (String × List String × List String)
  | _, [] => none
  | vis, c :: rest =>
    if c ∈ vis then popNextGo vis rest else some (c, vis ++ [c], rest)

/-- The worker loop of `NodeCrawler.crawl` (single worker): while the node
budget is not reached, pop-and-mark the next address and process it.
`fuel` bounds the number of iterations; the real loop stops on frontier
exhaustion or budget, which some finite fuel always reaches on a finite
network. -/
def crawlLoop (cfg : CrawlerConfig) (o : NetworkOracle) :
    Nat → CrawlState → CrawlState
  | 0, st => st
  | fuel + 1, st =>
    if st.nodes.length < cfg.maxNodes then
      match popNextGo st.visited st.queue with
      | none => st
      | some (addr, vis, q) =>
        let st1 := processNode cfg o
          { st with
            visited := vis
            queue := q
            processed := st.processed ++ [addr] } addr
        crawlLoop cfg o fuel st1
    else st

/-- Seeding the frontier: each seed is normalized and pushed when valid
(the visited set is empty at this point, so the source's
`!visited.has(...)` test always passes). -/
def initQueue (cfg : CrawlerConfig) : List String :=
  cfg.seedNodes.foldl
    (fun q seed =>
      match normalizeAddress seed with
      | some n => q ++ [n]
      | none => q) []

/-- `NodeCrawler.crawl`: seed the frontier, then run the worker loop. -/
def crawl (cfg : CrawlerConfig) (o : NetworkOracle) (fuel : Nat) : CrawlState :=
  crawlLoop cfg o fuel
    { visited := [], queue := initQueue cfg, nodes := [], edges := []
      responsiveCount := 0, failedCount := 0, processed := [] }

/-! ### Peer graph engine (`peer-graph.ts`) -/

/-- An adjacency `Map<string, Set<string>>` read through `.get`:
a function into `Option` of a duplicate-free, insertion-ordered list. -/
abbrev AdjMap := String → Option (List String)

/-- `Map.prototype.set` on an adjacency map. -/
def adjSet (m : AdjMap) (k : String) (v : List String) : AdjMap :=
  fun x => if x = k then some v else m x

/-- `PeerGraph.addEdge`, one direction: create the set if absent, then
`Set.add` the value. -/
def addEdgeTo (m : AdjMap) (k v : String) : AdjMap :=
  adjSet m k (setAdd ((m k).getD []) v)

/-- The graph state after `buildGraph` ran: both adjacency maps, the node
registry handed to the constructor, and the edge records after
`markBidirectionalEdges` wrote their `bidirectional` fields. -/
structure PeerGraph where
  adjacencyList : AdjMap
  reverseAdjacencyList : AdjMap
  nodeData : List (String × ArweaveNode)
  edges : List PeerEdge

/-- Registry keys in iteration order. -/
def keysOf (ns : List (String × ArweaveNode)) : List String := ns.map Prod.fst

/-- `PeerGraph` constructor + `buildGraph`: initialize empty adjacency
sets for every registry key, add both directions of every edge (the
source's single pass updates the two independent maps; two folds give the
same maps), then mark each edge bidirectional iff the adjacency list of
its target contains its source.  The marking step writes the
`bidirectional` field of the edge records it was handed. -/
def buildGraph (nodes : List (String × ArweaveNode)) (edges : List PeerEdge) : PeerGraph :=
  let adj0 : AdjMap := nodes.foldl (fun m p => adjSet m p.1 []) (fun _ => none)
  let radj0 : AdjMap := nodes.foldl (fun m p => adjSet m p.1 []) (fun _ => none)
  let adj := edges.foldl (fun m e => addEdgeTo m e.source e.target) adj0
  let radj := edges.foldl (fun m e => addEdgeTo m e.target e.source) radj0
  let edges2 := edges.map (fun e =>
    { e with bidirectional := ((adj e.target).getD []).contains e.source })
  { adjacencyList := adj, reverseAdjacencyList := radj, nodeData := nodes, edges := edges2 }

/-- `getOutDegree`: `adjacencyList.get(node)?.size || 0`. -/
def getOutDegree (g : PeerGraph) (v : String) : Nat :=
  ((g.adjacencyList v).getD []).length

/-- `getInDegree`: `reverseAdjacencyList.get(node)?.size || 0`. -/
def getInDegree (g : PeerGraph) (v : String) : Nat :=
  ((g.reverseAdjacencyList v).getD []).length

/-- `getNeighbors`: `new Set([...outbound, ...inbound])`. -/
def getNeighbors (g : PeerGraph) (v : String) : List String :=
  jsDedup (((g.adjacencyList v).getD []) ++ ((g.reverseAdjacencyList v).getD []))

/-- `getDegree`: the size of that union. -/
def getDegree (g : PeerGraph) (v : String) : Nat :=
  (getNeighbors g v).length

/-- `calculateDensity`: `E / (V × (V − 1))` for `V ≥ 2`, else `0`. -/
def calculateDensity (g : PeerGraph) : ℚ :=
  let n := g.nodeData.length
  if n < 2 then 0
  else (g.edges.length : ℚ) / ((n : ℚ) * ((n : ℚ) - 1))

/-- Is there an edge between `a` and `b` in either direction?  The inner
test of the neighbor-pair loop in `calculateClusteringCoefficient`. -/
def linkedEitherWay (g : PeerGraph) (a b : String) : Bool :=
  ((g.adjacencyList a).getD []).contains b || ((g.adjacencyList b).getD []).contains a

/-- The double loop `for i, for j > i` counting linked neighbor pairs. -/
def countLinkedPairs (g : PeerGraph) : List String → Nat
  | [] => 0
  | a :: rest => rest.countP (fun b => linkedEitherWay g a b) + countLinkedPairs g rest

/-- `calculateClusteringCoefficient`: `0` for degree < 2, otherwise linked
neighbor pairs over `k(k−1)/2`. -/
def calculateClusteringCoefficient (g : PeerGraph) (v : String) : ℚ :=
  let ns := getNeighbors g v
  let k := ns.length
  if k < 2 then 0
  else (countLinkedPairs g ns : ℚ) / (((k : ℚ) * ((k : ℚ) - 1)) / 2)

/-- `calculateAvgClusteringCoefficient`: sum the coefficient over every
registry key and divide by the count.  The source skips `NaN` values, but
the coefficient is `0` for `k < 2` and otherwise divides by
`k(k−1)/2 ≥ 1`, so no `NaN` ever arises and every node is counted. -/
def calculateAvgClusteringCoefficient (g : PeerGraph) : ℚ :=
  let sc := (keysOf g.nodeData).foldl
    (fun p v => (p.1 + calculateClusteringCoefficient g v, p.2 + 1)) ((0 : ℚ), (0 : Nat))
  if 0 < sc.2 then sc.1 / (sc.2 : ℚ) else 0

/-- Pointwise update of a total map (one `Map.prototype.set`).  The
per-source maps of Brandes' algorithm (`sigma`, `predecessors`, `delta`,
`betweenness`) are total functions whose defaults coincide with the values
the initialization loops write, so `.get(...)!` reads match the source on
every address the algorithm actually touches. -/
def updF {α : Type} (m : String → α) (k : String) (v : α) : String → α :=
  fun x => if x = k then v else m x

/-- The BFS state of one Brandes source run.  `distance` must stay
`Option`-valued: `distance.get(w)` is `undefined` for an edge endpoint
outside the registry, which fails both the `=== -1` first-visit test and
the `=== distance.get(v) + 1` path test, so such endpoints are never
enqueued — `none` models exactly that.  `stack` is kept head-first:
`push` is a cons and the accumulation pops head-first. -/
structure BrandesState where
  stack : List String
  preds : String → List String
  sigma : String → ℚ
  dist : String → Option Int
  queue : List String

/-- The body of `for w of neighbors`: on first visit enqueue `w` and set
its distance; then (against the just-updated distance) count shortest
paths and record the predecessor. -/
def bfsNeighborStep (st : BrandesState) (v w : String) : BrandesState :=
  let dv := (st.dist v).getD 0
  let st1 :=
    if st.dist w = some (-1) then
      { st with queue := st.queue ++ [w], dist := updF st.dist w (some (dv + 1)) }
    else st
  if st1.dist w = some (dv + 1) then
    { st1 with
      sigma := updF st1.sigma w (st1.sigma w + st1.sigma v)
      preds := updF st1.preds w (st1.preds w ++ [v]) }
  else st1

/-- The BFS `while (queue.length > 0)` loop; each registry node is
enqueued at most once (its distance leaves `-1` forever when enqueued), so
`nodes.length` fuel is enough to drain the queue. -/
def bfsLoop (g : PeerGraph) : Nat → BrandesState → BrandesState
  | 0, st => st
  | fuel + 1, st =>
    match st.queue with
    | [] => st
    | v :: rest =>
      let st1 := { st with queue := rest, stack := v :: st.stack }
      let st2 := (getNeighbors g v).foldl (fun s w => bfsNeighborStep s v w) st1
      bfsLoop g fuel st2

/-- The dependency accumulation: pop the stack, push each predecessor's
share `σ(v)/σ(w) · (1 + δ(w))`, and add `δ(w)` into the betweenness of
every popped non-source node. -/
def accumGo (preds : String → List String) (sigma : String → ℚ) (s : String) :
    List String → (String → ℚ) → (String → ℚ) → ((String → ℚ) × (String → ℚ))
  | [], delta, bw => (delta, bw)
  | w :: rest, delta, bw =>
    let delta2 := (preds w).foldl
      (fun d v => updF d v (d v + (sigma v / sigma w) * (1 + d w))) delta
    let bw2 := if w = s then bw else updF bw w (bw w + delta2 w)
    accumGo preds sigma s rest delta2 bw2

/-- One source iteration of `calculateBetweennessCentrality`: initialize
the per-source maps over the registry keys, run the BFS, then accumulate
dependencies into the running betweenness map. -/
def brandesSource (g : PeerGraph) (ks : List String) (bw : String → ℚ) (s : String) :
    String → ℚ :=
  let preds0 : String → List String := ks.foldl (fun m k => updF m k []) (fun _ => [])
  let sigma0 : String → ℚ := ks.foldl (fun m k => updF m k 0) (fun _ => 0)
  let dist0 : String → Option Int :=
    ks.foldl (fun m k => updF m k (some (-1))) (fun _ => none)
  let st0 : BrandesState :=
    { stack := [], preds := preds0, sigma := updF sigma0 s 1,
      dist := updF dist0 s (some 0), queue := [s] }
  let st := bfsLoop g ks.length st0
  let delta0 : String → ℚ := ks.foldl (fun m k => updF m k 0) (fun _ => 0)
  (accumGo st.preds st.sigma s st.stack delta0 bw).2

/-- `calculateBetweennessCentrality` (Brandes over the undirected view):
run every source, then scale by `2/((n−1)(n−2))` for `n > 2`, else by `1`.
The source scales exactly the map entries (the registry keys); scaling the
whole function agrees on the keys and keeps `0` elsewhere. -/
def calculateBetweennessCentrality (g : PeerGraph) : String → ℚ :=
  let ks := keysOf g.nodeData
  let bw0 : String → ℚ := ks.foldl (fun m k => updF m k 0) (fun _ => 0)
  let bw := ks.foldl (fun b s => brandesSource g ks b s) bw0
  let n := ks.length
  let norm : ℚ := if 2 < n then 2 / (((n : ℚ) - 1) * ((n : ℚ) - 2)) else 1
  fun x => bw x * norm

/-- The component BFS of `findConnectedComponents`: pop, skip if visited,
otherwise mark visited, append to the component, and push unvisited
neighbors.  Fuel bounds the pop count; every property proved below holds
for every fuel, and the chosen fuel in `findConnectedComponents` exceeds
the total number of pushes. -/
def bfsComp (g : PeerGraph) : Nat → List String → List String → List String →
    (List String × List String)
  | 0, _, vis, comp => (vis, comp)
  | _ + 1, [], vis, comp => (vis, comp)
  | fuel + 1, cur :: rest, vis, comp =>
    if cur ∈ vis then bfsComp g fuel rest vis comp
    else
      let vis1 := vis ++ [cur]
      let comp1 := comp ++ [cur]
      let queue1 := rest ++ (getNeighbors g cur).filter (fun w => w ∉ vis1)
      bfsComp g fuel queue1 vis1 comp1

/-- The outer loop of `findConnectedComponents` over the registry keys. -/
def componentsGo (g : PeerGraph) (fuel : Nat) :
    List String → List String → List (List String) → List (List String)
  | [], _, acc => acc
  | k :: ks, vis, acc =>
    if k ∈ vis then componentsGo g fuel ks vis acc
    else
      let (vis1, comp) := bfsComp g fuel [k] vis []
      componentsGo g fuel ks vis1 (acc ++ [comp])

/-- Stable insertion into a length-descending list: together with
`sortBySizeDesc` this reproduces `components.sort((a, b) => b.length -
a.length)` — JavaScript's sort is stable, and a stable sort by a total
preorder has a unique result. -/
def insertBySizeDesc (x : List String) : List (List String) → List (List String)
  | [] => [x]
  | y :: ys => if y.length < x.length then x :: y :: ys else y :: insertBySizeDesc x ys

/-- Stable sort, descending by component size. -/
def sortBySizeDesc : List (List String) → List (List String)
  | [] => []
  | x :: xs => insertBySizeDesc x (sortBySizeDesc xs)

/-- Fuel that exceeds any possible number of queue pushes: one initial
push per BFS plus at most one push per adjacency-list entry (an edge
contributes one entry to each adjacency direction). -/
def compFuel (g : PeerGraph) : Nat :=
  g.nodeData.length + 2 * g.edges.length + 2

/-- `findConnectedComponents`: BFS from each unvisited registry key, then
sort the components descending by size. -/
def findConnectedComponents (g : PeerGraph) : List (List String) :=
  sortBySizeDesc (componentsGo g (compFuel g) (keysOf g.nodeData) [] [])

/-! ### Concrete fixtures used by counterexamples and witnesses -/

/-- A minimal registry node for graph-level fixtures. -/
def mkNodeFx (a : String) : ArweaveNode :=
  { ip := a, port := 1984, address := a, isResponsive := true,
    inboundPeers := [], outboundPeers := [] }

/-- An unmarked edge record for graph-level fixtures. -/
def mkEdgeFx (s t : String) : PeerEdge :=
  { source := s, target := t, discoveredAt := 0, bidirectional := false }

/-- A fixed `/info` payload for the crawl fixtures. -/
def infoFx : ArweaveNodeInfo :=
  { network := "arweave.N.1", version := 2, release := 70, height := 100,
    current := "h", blocks := 100, peers := 1, queue_length := 0,
    node_state_latency := 0 }

/-- Crawl fixture A: one seed whose node answers and reports one peer,
with a budget of one node. -/
def cfgFxA : CrawlerConfig :=
  { seedNodes := ["1.2.3.4:1984"], maxNodes := 1, timeout := 100,
    concurrency := 1, delayBetweenRequests := 0, retries := 0 }

/-- The network for fixture A: only `1.2.3.4` answers, reporting
`5.6.7.8` as its peer. -/
def oracleFxA : NetworkOracle :=
  { infoAt := fun ip _ _ => if ip = "1.2.3.4" then some infoFx else none
    peersAt := fun ip _ => if ip = "1.2.3.4" then ["5.6.7.8"] else [] }

/-- Crawl fixture B: a single seed that normalizes fine but carries an
out-of-range port, on a dead network. -/
def cfgFxB : CrawlerConfig :=
  { seedNodes := ["1.2.3.4:99999"], maxNodes := 5, timeout := 100,
    concurrency := 1, delayBetweenRequests := 0, retries := 0 }

/-- A network where nothing answers. -/
def oracleFxB : NetworkOracle :=
  { infoAt := fun _ _ _ => none, peersAt := fun _ _ => [] }

/-- Graph fixture: a single self-loop edge. -/
def gSelfLoop : PeerGraph := buildGraph [] [mkEdgeFx "a" "a"]

/-- Graph fixture: two registry nodes, three edges toward unregistered
targets (a crawl shape: budget cut discovery short). -/
def gDenseFx : PeerGraph :=
  buildGraph [("a", mkNodeFx "a"), ("e", mkNodeFx "e")]
    [mkEdgeFx "a" "b", mkEdgeFx "a" "c", mkEdgeFx "a" "d"]

/-- Graph fixture: one registry node with an edge to an unregistered
target. -/
def gDangling : PeerGraph := buildGraph [("a", mkNodeFx "a")] [mkEdgeFx "a" "b"]

/-- The reciprocal, unmarked edge pair handed to `buildGraph` in the
frame-claim counterexample. -/
def recipEdges : List PeerEdge := [mkEdgeFx "a" "b", mkEdgeFx "b" "a"]

/-- An edge record with its `bidirectional` flag cleared: equality of
`eraseBidir` images says two edge records agree except possibly there. -/
def eraseBidir (e : PeerEdge) : PeerEdge := { e with bidirectional := false }

/-- The registry of the specification's end-to-end fixture: A reports B
and C, B reports A and C, C never responds. -/
def nsScenario : List (String × ArweaveNode) :=
  [("A", mkNodeFx "A"), ("B", mkNodeFx "B"), ("C", mkNodeFx "C")]

/-- The edge list of the end-to-end fixture. -/
def esScenario : List PeerEdge :=
  [mkEdgeFx "A" "B", mkEdgeFx "A" "C", mkEdgeFx "B" "A", mkEdgeFx "B" "C"]

/-- The built end-to-end fixture graph. -/
def gScenario : PeerGraph := buildGraph nsScenario esScenario

/-- The marked record that `buildGraph` produces for the first edge of
`recipEdges`. -/
def recipMarked : PeerEdge :=
  { source := "a", target := "b", discoveredAt := 0, bidirectional := true }

/-- Normalization vectors and probe inputs (claim C4). -/
def vecPlain : String := "1.2.3.4"

/-- Expected output for `vecPlain`. -/
def vecPlainOut : String := "1.2.3.4:1984"

/-- Vector: explicit port. -/
def vecPort : String := "1.2.3.4:9999"

/-- Vector: octet out of range. -/
def vecBadOctet : String := "300.1.1.1"

/-- Vector: bracketed IPv6 with port. -/
def vecV6 : String := "[::1]:1984"

/-- Vector: http-prefixed address. -/
def vecHttp : String := "http://5.6.7.8:1984"

/-- Expected output for `vecHttp`. -/
def vecHttpOut : String := "5.6.7.8:1984"

/-- Probe: a first octet that is not a decimal numeral, yet has the
numeral prefix `1` (JavaScript `parseInt` semantics). -/
def vecMixedOctet : String := "1a.2.3.4"

/-- What the code returns for `vecMixedOctet`. -/
def vecMixedOctetOut : String := "1a.2.3.4:1984"

/-- Probe: a scheme other than http/https. -/
def vecFtp : String := "ftp://1.2.3.4"

/-- The edge fixture A produces (its single recorded edge). -/
def fxAEdge : PeerEdge :=
  { source := "1.2.3.4:1984", target := "5.6.7.8:1984", discoveredAt := 0,
    bidirectional := false }

/-- The inductive invariant of the (single-worker) crawl loop: registry
keys are exactly the visited addresses that pass the port-range check, in
visit order; the visited set is duplicate-free; the processing log equals
the visited list; the registry respects the node budget; and every
recorded edge's source is registered. -/
def crawlInv (cfg : CrawlerConfig) (st : CrawlState) : Prop :=
  keysOf st.nodes = st.visited.filter portOk ∧
  st.visited.Nodup ∧
  st.processed = st.visited ∧
  st.nodes.length ≤ cfg.maxNodes ∧
  ∀ e ∈ st.edges, e.source ∈ keysOf st.nodes

/-- Names for the cycle fixture: index `i` becomes the string of `i`
copies of `a` — injective because the length is `i`. -/
def cName (i : Nat) : String := ⟨List.replicate i 'a'⟩

/-- Registry of the symmetric n-cycle fixture. -/
def cycleNodes (n : Nat) : List (String × ArweaveNode) :=
  (List.range n).map (fun i => (cName i, mkNodeFx (cName i)))

/-- Edge list of the n-cycle: each node reports its clockwise successor
(each cycle edge present in one direction; the undirected view is the
cycle). -/
def cycleEdges (n : Nat) : List PeerEdge :=
  (List.range n).map (fun i => mkEdgeFx (cName i) (cName ((i + 1) % n)))

/-- The built symmetric n-cycle. -/
def cycleGraph (n : Nat) : PeerGraph := buildGraph (cycleNodes n) (cycleEdges n)

/-- The rotation symmetry of the n-cycle on names (identity off the
cycle). -/
def rotFun (n : Nat) (x : String) : String :=
  if x = cName x.length ∧ x.length < n then cName ((x.length + 1) % n) else x

/-- Transport relation between two Brandes states along a renaming `r`:
the primed state is the `r`-image of the plain one on every component the
algorithm reads. -/
def BrandesRel (r : String → String) (st st' : BrandesState) : Prop :=
  st'.stack = st.stack.map r ∧
  st'.queue = st.queue.map r ∧
  (∀ x, st'.preds (r x) = (st.preds x).map r) ∧
  (∀ x, st'.sigma (r x) = st.sigma x) ∧
  (∀ x, st'.dist (r x) = st.dist x)

/-- The contribution of a single Brandes source run, started from the
all-zero betweenness map; `brandesSource` adds exactly this to its
running map (proved below). -/
def brandesContrib (g : PeerGraph) (ks : List String) (s : String) : String → ℚ :=
  brandesSource g ks (fun _ => 0) s

/-! ### Theorems -/

/-- C4 counterexample: the stated rules reject anything but four decimal
octets and say any `scheme://` prefix is stripped; the code accepts
`1a.2.3.4` (its `parseInt`-prefix is `1`) and rejects `ftp://1.2.3.4`
(only `http(s)://` is stripped, and `ftp` is then read as an IPv4 part). -/
theorem normalizeAddress_claim_counterexample :
    normalizeAddress vecMixedOctet = some vecMixedOctetOut ∧
    normalizeAddress vecFtp = none := by
  constructor <;> decide

/-- C4 (amended): the five stated vectors hold; octet and port validation
follows `parseInt` longest-numeral-prefix semantics (so `1a.2.3.4` is
accepted as `1a.2.3.4:1984`), and only `http://`/`https://` prefixes are
stripped (so `ftp://1.2.3.4` is invalid). -/
theorem normalizeAddress_vectors :
    normalizeAddress vecPlain = some vecPlainOut ∧
    normalizeAddress vecPort = some vecPort ∧
    normalizeAddress vecBadOctet = none ∧
    normalizeAddress vecV6 = some vecV6 ∧
    normalizeAddress vecHttp = some vecHttpOut ∧
    normalizeAddress vecMixedOctet = some vecMixedOctetOut ∧
    normalizeAddress vecFtp = none := by
  refine ⟨?_, ?_, ?_, ?_, ?_, ?_, ?_⟩ <;> decide

/-- Membership in `Set.add`. -/
theorem setAdd_mem {l : List String} {x y : String} :
    y ∈ setAdd l x ↔ y ∈ l ∨ y = x := by
  unfold setAdd
  by_cases h : x ∈ l
  · simp only [if_pos h]
    constructor
    · exact fun hy => Or.inl hy
    · rintro (hy | rfl) <;> assumption
  · simp [if_neg h]

/-- Membership in the deduplication pass. -/
theorem jsDedupGo_mem (l : List String) : ∀ (seen : List String) (x : String),
    x ∈ jsDedupGo seen l ↔ x ∈ l ∧ x ∉ seen := by
  induction l with
  | nil => intro seen x; simp [jsDedupGo]
  | cons a as ih =>
    intro seen x
    unfold jsDedupGo
    by_cases ha : a ∈ seen
    · rw [if_pos ha, ih]
      constructor
      · rintro ⟨h1, h2⟩; exact ⟨List.mem_cons_of_mem a h1, h2⟩
      · rintro ⟨h1, h2⟩
        rcases List.mem_cons.1 h1 with rfl | h3
        · exact absurd ha h2
        · exact ⟨h3, h2⟩
    · rw [if_neg ha]
      constructor
      · intro h
        rcases List.mem_cons.1 h with rfl | h2
        · exact ⟨List.mem_cons_self _ _, ha⟩
        · have h3 := (ih (a :: seen) x).1 h2
          exact ⟨List.mem_cons_of_mem a h3.1,
            fun hx => h3.2 (List.mem_cons_of_mem a hx)⟩
      · rintro ⟨h1, h2⟩
        rcases List.mem_cons.1 h1 with rfl | h3
        · exact List.mem_cons_self _ _
        · by_cases hxa : x = a
          · exact hxa ▸ List.mem_cons_self _ _
          · refine List.mem_cons_of_mem _ ((ih (a :: seen) x).2 ⟨h3, ?_⟩)
            intro hm
            rcases List.mem_cons.1 hm with h4 | h4
            · exact hxa h4
            · exact h2 h4

/-- Membership in `new Set(list)`. -/
theorem jsDedup_mem {l : List String} {x : String} : x ∈ jsDedup l ↔ x ∈ l := by
  unfold jsDedup; rw [jsDedupGo_mem]; simp

/-- The deduplication pass produces no duplicates. -/
theorem jsDedupGo_nodup (l : List String) : ∀ seen : List String,
    (jsDedupGo seen l).Nodup := by
  induction l with
  | nil => intro seen; simp [jsDedupGo]
  | cons a as ih =>
    intro seen
    unfold jsDedupGo
    by_cases ha : a ∈ seen
    · rw [if_pos ha]; exact ih seen
    · rw [if_neg ha]
      refine List.nodup_cons.2 ⟨?_, ih (a :: seen)⟩
      intro hmem
      exact ((jsDedupGo_mem as (a :: seen) a).1 hmem).2 (List.mem_cons_self a seen)

/-- `new Set(list)` produces no duplicates. -/
theorem jsDedup_nodup (l : List String) : (jsDedup l).Nodup := jsDedupGo_nodup l []

/-- After initializing empty adjacency sets, every lookup (defaulted) is
empty. -/
theorem initFold_getD (ns : List (String × ArweaveNode)) :
    ∀ (m : AdjMap), (∀ x, (m x).getD [] = []) →
    ∀ x, ((ns.foldl (fun m p => adjSet m p.1 []) m) x).getD [] = [] := by
  induction ns with
  | nil => intro m h x; exact h x
  | cons p ps ih =>
    intro m h x
    refine ih _ (fun y => ?_) x
    unfold adjSet
    by_cases hy : y = p.1 <;> simp [hy, h y]

/-- Defaulted lookup through `addEdge`. -/
theorem addEdgeTo_getD (m : AdjMap) (k v x : String) :
    ((addEdgeTo m k v) x).getD [] =
      if x = k then setAdd ((m k).getD []) v else (m x).getD [] := by
  unfold addEdgeTo adjSet
  by_cases hx : x = k <;> simp [hx]

/-- Membership in an adjacency map built by folding `addEdge` over an
edge list, for an arbitrary key selector `f` and value selector `g`. -/
theorem addFold_getD_mem (f g : PeerEdge → String) (es : List PeerEdge) :
    ∀ (m : AdjMap) (x y : String),
    (y ∈ ((es.foldl (fun m e => addEdgeTo m (f e) (g e)) m) x).getD [] ↔
      y ∈ (m x).getD [] ∨ ∃ e ∈ es, f e = x ∧ g e = y) := by
  induction es with
  | nil => intro m x y; simp
  | cons e rest ih =>
    intro m x y
    rw [List.foldl_cons, ih]
    constructor
    · rintro (hy | ⟨e2, he2, hfe, hge⟩)
      · rw [addEdgeTo_getD] at hy
        by_cases hx : x = f e
        · rw [if_pos hx, setAdd_mem] at hy
          rcases hy with hy | rfl
          · exact Or.inl (hx.symm ▸ hy)
          · exact Or.inr ⟨e, List.mem_cons_self e rest, hx.symm, rfl⟩
        · rw [if_neg hx] at hy; exact Or.inl hy
      · exact Or.inr ⟨e2, List.mem_cons_of_mem e he2, hfe, hge⟩
    · rintro (hy | ⟨e2, he2, hfe, hge⟩)
      · left
        rw [addEdgeTo_getD]
        by_cases hx : x = f e
        · rw [if_pos hx, setAdd_mem]; exact Or.inl (hx ▸ hy)
        · rwa [if_neg hx]
      · rcases List.mem_cons.1 he2 with rfl | he2
        · left
          rw [addEdgeTo_getD, if_pos hfe.symm, setAdd_mem]
          exact Or.inr hge.symm
        · exact Or.inr ⟨e2, he2, hfe, hge⟩

/-- An address never written by an `addEdge` fold keeps its lookup. -/
theorem addFold_eq_of_ne (f g : PeerEdge → String) (es : List PeerEdge) :
    ∀ (m : AdjMap) (x : String), (∀ e ∈ es, f e ≠ x) →
    (es.foldl (fun m e => addEdgeTo m (f e) (g e)) m) x = m x := by
  induction es with
  | nil => intro m x _; rfl
  | cons e rest ih =>
    intro m x h
    rw [List.foldl_cons, ih _ x (fun e2 he2 => h e2 (List.mem_cons_of_mem e he2))]
    unfold addEdgeTo adjSet
    rw [if_neg (fun hx : x = f e => h e (List.mem_cons_self e rest) hx.symm)]

/-- An address outside the registry keeps its lookup through the
initialization fold. -/
theorem initFold_eq_of_ne (ns : List (String × ArweaveNode)) :
    ∀ (m : AdjMap) (x : String), x ∉ keysOf ns →
    (ns.foldl (fun m p => adjSet m p.1 []) m) x = m x := by
  induction ns with
  | nil => intro m x _; rfl
  | cons p ps ih =>
    intro m x hx
    rw [List.foldl_cons, ih _ x (fun h => hx (List.mem_cons_of_mem _ h))]
    unfold adjSet
    rw [if_neg (fun h : x = p.1 => hx (h ▸ List.mem_cons_self _ _))]

/-- The registry handed to `buildGraph` is stored untouched. -/
theorem buildGraph_nodeData (ns : List (String × ArweaveNode)) (es : List PeerEdge) :
    (buildGraph ns es).nodeData = ns := rfl

/-- The constructed forward adjacency holds exactly the edge list's
(source, target) observations. -/
theorem buildGraph_adj_mem (ns : List (String × ArweaveNode)) (es : List PeerEdge)
    (x y : String) :
    y ∈ (((buildGraph ns es).adjacencyList x).getD []) ↔
      ∃ e ∈ es, e.source = x ∧ e.target = y := by
  show y ∈ ((es.foldl (fun m e => addEdgeTo m e.source e.target)
      (ns.foldl (fun m p => adjSet m p.1 []) (fun _ => none))) x).getD [] ↔ _
  rw [addFold_getD_mem (fun e => e.source) (fun e => e.target) es]
  rw [initFold_getD ns (fun _ => none) (fun _ => rfl) x]
  simp

/-- The constructed reverse adjacency holds exactly the reversed
observations. -/
theorem buildGraph_radj_mem (ns : List (String × ArweaveNode)) (es : List PeerEdge)
    (x y : String) :
    y ∈ (((buildGraph ns es).reverseAdjacencyList x).getD []) ↔
      ∃ e ∈ es, e.target = x ∧ e.source = y := by
  show y ∈ ((es.foldl (fun m e => addEdgeTo m e.target e.source)
      (ns.foldl (fun m p => adjSet m p.1 []) (fun _ => none))) x).getD [] ↔ _
  rw [addFold_getD_mem (fun e => e.target) (fun e => e.source) es]
  rw [initFold_getD ns (fun _ => none) (fun _ => rfl) x]
  simp

/-- An address that is neither a registry key nor an edge source has no
forward adjacency entry at all. -/
theorem buildGraph_adj_none (ns : List (String × ArweaveNode)) (es : List PeerEdge)
    (x : String) (hk : x ∉ keysOf ns) (hs : ∀ e ∈ es, e.source ≠ x) :
    (buildGraph ns es).adjacencyList x = none := by
  show (es.foldl (fun m e => addEdgeTo m e.source e.target)
      (ns.foldl (fun m p => adjSet m p.1 []) (fun _ => none))) x = none
  rw [addFold_eq_of_ne (fun e => e.source) (fun e => e.target) es _ x hs,
    initFold_eq_of_ne ns _ x hk]

/-- An address that is neither a registry key nor an edge target has no
reverse adjacency entry at all. -/
theorem buildGraph_radj_none (ns : List (String × ArweaveNode)) (es : List PeerEdge)
    (x : String) (hk : x ∉ keysOf ns) (ht : ∀ e ∈ es, e.target ≠ x) :
    (buildGraph ns es).reverseAdjacencyList x = none := by
  show (es.foldl (fun m e => addEdgeTo m e.target e.source)
      (ns.foldl (fun m p => adjSet m p.1 []) (fun _ => none))) x = none
  rw [addFold_eq_of_ne (fun e => e.target) (fun e => e.source) es _ x ht,
    initFold_eq_of_ne ns _ x hk]

/-- Neighborhood membership after construction: either direction of an
edge observation. -/
theorem getNeighbors_mem (ns : List (String × ArweaveNode)) (es : List PeerEdge)
    (x y : String) :
    y ∈ getNeighbors (buildGraph ns es) x ↔
      (∃ e ∈ es, e.source = x ∧ e.target = y) ∨
      (∃ e ∈ es, e.target = x ∧ e.source = y) := by
  unfold getNeighbors
  rw [jsDedup_mem, List.mem_append, buildGraph_adj_mem, buildGraph_radj_mem]

/-- The undirected neighbor relation is symmetric. -/
theorem getNeighbors_symm (ns : List (String × ArweaveNode)) (es : List PeerEdge)
    (x y : String) :
    y ∈ getNeighbors (buildGraph ns es) x ↔ x ∈ getNeighbors (buildGraph ns es) y := by
  rw [getNeighbors_mem, getNeighbors_mem, or_comm]
  constructor
  · rintro (⟨e, he, h1, h2⟩ | ⟨e, he, h1, h2⟩)
    · exact Or.inl ⟨e, he, h2, h1⟩
    · exact Or.inr ⟨e, he, h2, h1⟩
  · rintro (⟨e, he, h1, h2⟩ | ⟨e, he, h1, h2⟩)
    · exact Or.inl ⟨e, he, h2, h1⟩
    · exact Or.inr ⟨e, he, h2, h1⟩

/-- What `markBidirectionalEdges` writes: the flag of each produced edge
record is the reverse-existence test against the full edge list. -/
theorem buildGraph_edges_eq (ns : List (String × ArweaveNode)) (es : List PeerEdge) :
    (buildGraph ns es).edges = es.map (fun e =>
      { e with bidirectional :=
          (((buildGraph ns es).adjacencyList e.target).getD []).contains e.source }) :=
  rfl

/-- The flag written by the marking pass, as a proposition about the edge
list: `(s, t)` is flagged iff some `(t, s)` is present. -/
theorem marked_bidir_iff (ns : List (String × ArweaveNode)) (es : List PeerEdge)
    (e : PeerEdge) (he : e ∈ (buildGraph ns es).edges) :
    (e.bidirectional = true ↔ ∃ e2 ∈ es, e2.source = e.target ∧ e2.target = e.source) := by
  rw [buildGraph_edges_eq] at he
  rcases List.mem_map.1 he with ⟨e0, _, rfl⟩
  show (((buildGraph ns es).adjacencyList e0.target).getD []).contains e0.source = true ↔ _
  rw [List.elem_iff, buildGraph_adj_mem]

/-- Parity helper: a finite set of ordered pairs that is closed under
swapping and avoids the diagonal has even cardinality. -/
theorem even_card_of_swap_closed {α : Type} [DecidableEq α] :
    ∀ (n : Nat) (S : Finset (α × α)), S.card = n →
    (∀ p ∈ S, Prod.swap p ∈ S) → (∀ p ∈ S, p.1 ≠ p.2) → Even n := by
  intro n
  induction n using Nat.strong_induction_on with
  | _ n ih =>
    intro S hcard hclosed hoff
    rcases Nat.eq_zero_or_pos n with rfl | hpos
    · exact even_zero
    · have hne : S.Nonempty := Finset.card_pos.1 (hcard ▸ hpos)
      obtain ⟨p, hp⟩ := hne
      have hswap : Prod.swap p ∈ S := hclosed p hp
      have hpq : Prod.swap p ≠ p := by
        intro h
        exact hoff p hp (by
          have h1 : p.2 = p.1 := congrArg Prod.fst h
          exact h1.symm)
      have hswap' : Prod.swap p ∈ S.erase p := Finset.mem_erase.2 ⟨hpq, hswap⟩
      set S' := (S.erase p).erase (Prod.swap p) with hS'
      have hc1 : (S.erase p).card = n - 1 := by
        rw [Finset.card_erase_of_mem hp, hcard]
      have hc2 : S'.card = n - 2 := by
        rw [hS', Finset.card_erase_of_mem hswap', hc1]
        omega
      have hn2 : 2 ≤ n := by
        have h1 : 0 < (S.erase p).card := Finset.card_pos.2 ⟨Prod.swap p, hswap'⟩
        omega
      have hclosed' : ∀ q ∈ S', Prod.swap q ∈ S' := by
        intro q hq
        have hq1 : q ∈ S := Finset.mem_of_mem_erase (Finset.mem_of_mem_erase hq)
        have hqp : q ≠ p := (Finset.mem_erase.1 (Finset.mem_of_mem_erase hq)).1
        have hqs : q ≠ Prod.swap p := (Finset.mem_erase.1 hq).1
        refine Finset.mem_erase.2 ⟨?_, Finset.mem_erase.2 ⟨?_, hclosed q hq1⟩⟩
        · intro h
          exact hqp (by
            have := congrArg Prod.swap h
            simpa using this)
        · intro h
          exact hqs (by
            have := congrArg Prod.swap h
            simpa using this)
      have hoff' : ∀ q ∈ S', q.1 ≠ q.2 := fun q hq =>
        hoff q (Finset.mem_of_mem_erase (Finset.mem_of_mem_erase hq))
      have heven := ih (n - 2) (by omega) S' hc2 hclosed' hoff'
      rcases heven with ⟨r, hr⟩
      exact ⟨r + 1, by omega⟩

/-- C3 counterexample: a single self-loop edge is its own reverse, so the
marking pass flags it and the flagged count is 1 — odd.  (A node that
lists itself as a peer produces exactly this shape.) -/
theorem bidirectional_even_counterexample :
    ¬ Even (gSelfLoop.edges.countP (fun e => e.bidirectional)) := by decide

/-- C3 (amended): after construction an edge is flagged iff its reverse
is in the edge list; and when the edge list has no duplicate
(source, target) pairs and no self-loops, the number of flagged edges is
even.  (A self-loop alone is flagged — it is its own reverse — giving an
odd count, and duplicated pairs can likewise break parity.) -/
theorem bidirectional_iff_and_even (ns : List (String × ArweaveNode))
    (es : List PeerEdge) :
    (∀ e ∈ (buildGraph ns es).edges,
      (e.bidirectional = true ↔ ∃ e2 ∈ es, e2.source = e.target ∧ e2.target = e.source)) ∧
    ((es.map (fun e => (e.source, e.target))).Nodup →
      (∀ e ∈ es, e.source ≠ e.target) →
      Even ((buildGraph ns es).edges.countP (fun e => e.bidirectional))) := by
  constructor
  · exact fun e he => marked_bidir_iff ns es e he
  · intro hnd hself
    have hps : ∀ e : PeerEdge,
        ((((buildGraph ns es).adjacencyList e.target).getD []).contains
        e.source) = ((es.map (fun e2 => (e2.source, e2.target))).contains
        (e.target, e.source)) := by
      intro e
      have h1 : (((buildGraph ns es).adjacencyList e.target).getD []).contains
          e.source = true ↔ ∃ e2 ∈ es, e2.source = e.target ∧ e2.target = e.source := by
        rw [List.elem_iff, buildGraph_adj_mem]
      have h2 : ((es.map (fun e2 => (e2.source, e2.target))).contains
          (e.target, e.source)) = true ↔
          ∃ e2 ∈ es, e2.source = e.target ∧ e2.target = e.source := by
        rw [List.elem_iff, List.mem_map]
        constructor
        · rintro ⟨e2, he2, hpair⟩
          exact ⟨e2, he2, congrArg Prod.fst hpair, congrArg Prod.snd hpair⟩
        · rintro ⟨e2, he2, hs, ht⟩
          exact ⟨e2, he2, by rw [hs, ht]⟩
      have boolExt : ∀ a b : Bool, (a = true ↔ b = true) → a = b := by
        intro a b h
        cases a <;> cases b <;> simp_all
      exact boolExt _ _ (h1.trans h2.symm)
    rw [buildGraph_edges_eq, List.countP_map]
    have hcongr : (es.countP ((fun e : PeerEdge => e.bidirectional) ∘ (fun e =>
        { e with bidirectional :=
          (((buildGraph ns es).adjacencyList e.target).getD []).contains e.source }))) =
        es.countP (fun e => ((es.map (fun e2 => (e2.source, e2.target))).contains
          (e.target, e.source))) := by
      apply List.countP_congr
      intro e _
      have hiff : ∀ a b : Bool, a = b → (a = true ↔ b = true) := by
        intro a b h
        rw [h]
      exact hiff _ _ (hps e)
    rw [hcongr]
    have hfact : (es.countP (fun e => ((es.map (fun e2 => (e2.source, e2.target))).contains
        (e.target, e.source)))) = ((es.map (fun e2 => (e2.source, e2.target))).countP
        (fun q => ((es.map (fun e2 => (e2.source, e2.target))).contains q.swap))) := by
      rw [List.countP_map]
      rfl
    rw [hfact]
    set ps := es.map (fun e2 => (e2.source, e2.target)) with hpsdef
    rw [List.countP_eq_length_filter]
    have hfn : (ps.filter (fun q => ps.contains q.swap)).Nodup := List.Nodup.filter _ hnd
    rw [← List.toFinset_card_of_nodup hfn]
    apply even_card_of_swap_closed _ _ rfl
    · intro p hp
      rw [List.mem_toFinset, List.mem_filter] at hp ⊢
      have h1 : p.swap ∈ ps := List.elem_iff.1 hp.2
      refine ⟨h1, List.elem_iff.2 ?_⟩
      rw [Prod.swap_swap]
      exact hp.1
    · intro p hp
      rw [List.mem_toFinset, List.mem_filter] at hp
      rcases List.mem_map.1 hp.1 with ⟨e2, he2, rfl⟩
      exact hself e2 he2

/-- C3 witness: the end-to-end fixture (duplicate-free, no self-loops)
has an even number of flagged edges. -/
theorem bidirectional_even_witness :
    Even ((buildGraph nsScenario esScenario).edges.countP (fun e => e.bidirectional)) :=
  (bidirectional_iff_and_even nsScenario esScenario).2 (by decide) (by decide)

/-- C9 counterexample: handing `buildGraph` a reciprocal pair of unmarked
edges gives back edge records whose `bidirectional` fields were rewritten
— the constructor mutates the snapshot's edge records. -/
theorem buildGraph_mutates_counterexample :
    (buildGraph [] recipEdges).edges ≠ recipEdges := by decide

/-- C9 (amended): construction leaves the registry untouched and changes
nothing in the edge records except the `bidirectional` field, which the
marking pass rewrites to the reverse-existence value (the one intended
mutation — the crawler stores `bidirectional: false // will be updated
later`); metric queries are reads and modify nothing. -/
theorem buildGraph_frame (ns : List (String × ArweaveNode)) (es : List PeerEdge) :
    (buildGraph ns es).nodeData = ns ∧
    (buildGraph ns es).edges.map eraseBidir = es.map eraseBidir ∧
    ∀ e ∈ (buildGraph ns es).edges,
      (e.bidirectional = true ↔ ∃ e2 ∈ es, e2.source = e.target ∧ e2.target = e.source) := by
  refine ⟨rfl, ?_, fun e he => marked_bidir_iff ns es e he⟩
  rw [buildGraph_edges_eq, List.map_map]
  apply List.map_congr_left
  intro e _
  cases e
  rfl

/-- C9 witness: the frame theorem applied to the reciprocal fixture — its
first produced record is flagged because the reverse edge is present. -/
theorem buildGraph_frame_witness :
    recipMarked.bidirectional = true ↔
      ∃ e2 ∈ recipEdges, e2.source = recipMarked.target ∧ e2.target = recipMarked.source :=
  (buildGraph_frame [] recipEdges).2.2 recipMarked (by decide)

/-- C5 counterexample: two registered nodes and three edges toward
unregistered targets (a crawl cut short by its budget produces exactly
this) give density `3/2`, outside `[0, 1]`. -/
theorem density_counterexample : ¬ (calculateDensity gDenseFx ≤ 1) := by
  have h1 : gDenseFx.edges.length = 3 := by decide
  have h2 : gDenseFx.nodeData.length = 2 := by decide
  have h : calculateDensity gDenseFx = 3 / 2 := by
    simp only [calculateDensity, h1, h2]
    norm_num
  rw [h]
  norm_num

/-- C5 (amended): density is `0` for fewer than two registry entries and
`E / (V(V−1))` otherwise, and it is always nonnegative; it stays within
`[0, 1]` when the edge list is duplicate-free, self-loop-free and both
endpoints of every edge are registry keys (then `E ≤ V(V−1)`) — edges
toward unregistered or duplicated targets can push it above `1`. -/
theorem calculateDensity_spec (ns : List (String × ArweaveNode)) (es : List PeerEdge) :
    (ns.length < 2 → calculateDensity (buildGraph ns es) = 0) ∧
    (2 ≤ ns.length → calculateDensity (buildGraph ns es) =
      (es.length : ℚ) / ((ns.length : ℚ) * ((ns.length : ℚ) - 1))) ∧
    0 ≤ calculateDensity (buildGraph ns es) ∧
    ((keysOf ns).Nodup → (es.map (fun e => (e.source, e.target))).Nodup →
      (∀ e ∈ es, e.source ∈ keysOf ns ∧ e.target ∈ keysOf ns ∧ e.source ≠ e.target) →
      calculateDensity (buildGraph ns es) ≤ 1) := by
  have hlen : (buildGraph ns es).edges.length = es.length := by
    rw [buildGraph_edges_eq, List.length_map]
  have hnode : (buildGraph ns es).nodeData.length = ns.length := rfl
  refine ⟨?_, ?_, ?_, ?_⟩
  · intro h
    simp only [calculateDensity, hnode, if_pos h]
  · intro h
    simp only [calculateDensity, hnode, hlen, if_neg (Nat.not_lt.2 h)]
  · simp only [calculateDensity, hnode, hlen]
    by_cases h : ns.length < 2
    · rw [if_pos h]
    · rw [if_neg h]
      have h2 : 2 ≤ ns.length := Nat.not_lt.1 h
      apply div_nonneg (Nat.cast_nonneg _)
      have : (2 : ℚ) ≤ (ns.length : ℚ) := by exact_mod_cast h2
      nlinarith
  · intro hknd hend hmem
    simp only [calculateDensity, hnode, hlen]
    by_cases h : ns.length < 2
    · rw [if_pos h]; norm_num
    · rw [if_neg h]
      have h2 : 2 ≤ ns.length := Nat.not_lt.1 h
      set n := ns.length with hn
      have hkeys : (keysOf ns).length = n := by
        rw [hn]; unfold keysOf; rw [List.length_map]
      have hbound : es.length ≤ n * n - n := by
        have hps : es.length = (es.map (fun e => (e.source, e.target))).length := by
          rw [List.length_map]
        rw [hps, ← List.toFinset_card_of_nodup hend]
        have hsub : (es.map (fun e => (e.source, e.target))).toFinset ⊆
            (keysOf ns).toFinset.offDiag := by
          intro p hp
          rw [List.mem_toFinset, List.mem_map] at hp
          rcases hp with ⟨e, he, rfl⟩
          rcases hmem e he with ⟨hs, ht, hne⟩
          exact Finset.mem_offDiag.2 ⟨List.mem_toFinset.2 hs, List.mem_toFinset.2 ht, hne⟩
        calc (es.map (fun e => (e.source, e.target))).toFinset.card
            ≤ (keysOf ns).toFinset.offDiag.card := Finset.card_le_card hsub
          _ = n * n - n := by
              rw [Finset.offDiag_card, List.toFinset_card_of_nodup hknd, hkeys]
      have hq2 : (2 : ℚ) ≤ (n : ℚ) := by exact_mod_cast h2
      have hpos : 0 < (n : ℚ) * ((n : ℚ) - 1) := by nlinarith
      rw [div_le_one hpos]
      have hcast : ((n * n - n : ℕ) : ℚ) = (n : ℚ) * (n : ℚ) - (n : ℚ) := by
        have hle : n ≤ n * n := Nat.le_mul_of_pos_left n (by omega)
        push_cast [Nat.cast_sub hle]
        ring
      have : (es.length : ℚ) ≤ ((n * n - n : ℕ) : ℚ) := by exact_mod_cast hbound
      rw [hcast] at this
      nlinarith

/-- C5 witness: the end-to-end fixture (3 registered nodes, 4 in-registry
edges) has density `4/6` and satisfies every conjunct. -/
theorem calculateDensity_spec_witness :
    calculateDensity (buildGraph nsScenario esScenario) ≤ 1 :=
  (calculateDensity_spec nsScenario esScenario).2.2.2 (by decide) (by decide) (by decide)

/-- The running (sum, count) pair of the averaging loop. -/
theorem foldl_sum_count (f : String → ℚ) (l : List String) :
    ∀ (a : ℚ) (b : Nat),
    l.foldl (fun p v => (p.1 + f v, p.2 + 1)) (a, b) = (a + (l.map f).sum, b + l.length) := by
  induction l with
  | nil => intro a b; simp
  | cons x xs ih =>
    intro a b
    rw [List.foldl_cons, ih]
    simp [add_assoc]
    ring

/-- C6: the average clustering coefficient is the mean over all registry
keys — nodes of undirected degree `< 2` contribute `0` and stay in the
denominator (the `NaN` filter of the source never fires: the coefficient
is `0` for `k < 2` and otherwise divides by `k(k−1)/2 ≥ 1`); the empty
graph yields `0`. -/
theorem avgClustering_spec (ns : List (String × ArweaveNode)) (es : List PeerEdge) :
    (calculateAvgClusteringCoefficient (buildGraph ns es) =
      if ns = [] then 0 else
        ((keysOf ns).map (calculateClusteringCoefficient (buildGraph ns es))).sum /
          ((keysOf ns).length : ℚ)) ∧
    (∀ v, getDegree (buildGraph ns es) v < 2 →
      calculateClusteringCoefficient (buildGraph ns es) v = 0) := by
  constructor
  · have hkeys : keysOf (buildGraph ns es).nodeData = keysOf ns := rfl
    simp only [calculateAvgClusteringCoefficient, hkeys,
      foldl_sum_count (calculateClusteringCoefficient (buildGraph ns es)) (keysOf ns) 0 0,
      zero_add, Nat.zero_add]
    by_cases h : ns = []
    · subst h
      simp [keysOf]
    · have hlen : 0 < (keysOf ns).length := by
        unfold keysOf
        rw [List.length_map]
        exact List.length_pos.2 h
      rw [if_pos hlen, if_neg h]
  · intro v h
    show (if (getNeighbors (buildGraph ns es) v).length < 2 then (0 : ℚ)
      else (countLinkedPairs (buildGraph ns es) (getNeighbors (buildGraph ns es) v) : ℚ) /
        ((((getNeighbors (buildGraph ns es) v).length : ℚ) *
          (((getNeighbors (buildGraph ns es) v).length : ℚ) - 1)) / 2)) = 0
    exact if_pos h

/-- C6 witness: in the dangling fixture the unregistered endpoint `b` has
degree `1`, and its coefficient is `0`. -/
theorem avgClustering_spec_witness :
    calculateClusteringCoefficient (buildGraph [("a", mkNodeFx "a")] [mkEdgeFx "a" "b"])
      "b" = 0 :=
  (avgClustering_spec [("a", mkNodeFx "a")] [mkEdgeFx "a" "b"]).2 "b" (by decide)

/-- C10: every metric read on an address that is neither a registry key
nor an edge endpoint returns the defined empty value — no lookup fails. -/
theorem metrics_unknown_address (ns : List (String × ArweaveNode)) (es : List PeerEdge)
    (v : String) (hk : v ∉ keysOf ns) (he : ∀ e ∈ es, e.source ≠ v ∧ e.target ≠ v) :
    getOutDegree (buildGraph ns es) v = 0 ∧
    getInDegree (buildGraph ns es) v = 0 ∧
    getDegree (buildGraph ns es) v = 0 ∧
    getNeighbors (buildGraph ns es) v = [] ∧
    calculateClusteringCoefficient (buildGraph ns es) v = 0 := by
  have hadj : (buildGraph ns es).adjacencyList v = none :=
    buildGraph_adj_none ns es v hk (fun e hee => (he e hee).1)
  have hradj : (buildGraph ns es).reverseAdjacencyList v = none :=
    buildGraph_radj_none ns es v hk (fun e hee => (he e hee).2)
  have hnb : getNeighbors (buildGraph ns es) v = [] := by
    unfold getNeighbors
    rw [hadj, hradj]
    rfl
  refine ⟨?_, ?_, ?_, hnb, ?_⟩
  · unfold getOutDegree; rw [hadj]; rfl
  · unfold getInDegree; rw [hradj]; rfl
  · unfold getDegree; rw [hnb]; rfl
  · unfold calculateClusteringCoefficient
    rw [hnb]
    rfl

/-- C10 witness: the metric reads on the absent address `zz` of the
dangling fixture. -/
theorem metrics_unknown_address_witness :
    getNeighbors (buildGraph [("a", mkNodeFx "a")] [mkEdgeFx "a" "b"]) "zz" = [] :=
  (metrics_unknown_address [("a", mkNodeFx "a")] [mkEdgeFx "a" "b"] "zz"
    (by decide) (by decide)).2.2.2.1

/-- Step equation of the component BFS: an already-visited head is
skipped. -/
theorem bfsComp_cons_mem (g : PeerGraph) (f : Nat) (cur : String)
    (rest vis comp : List String) (h : cur ∈ vis) :
    bfsComp g (f + 1) (cur :: rest) vis comp = bfsComp g f rest vis comp := by
  simp only [bfsComp, if_pos h]

/-- Step equation of the component BFS: a fresh head is visited, recorded
and its unvisited neighbors are pushed. -/
theorem bfsComp_cons_not_mem (g : PeerGraph) (f : Nat) (cur : String)
    (rest vis comp : List String) (h : cur ∉ vis) :
    bfsComp g (f + 1) (cur :: rest) vis comp =
      bfsComp g f (rest ++ (getNeighbors g cur).filter (fun w => w ∉ vis ++ [cur]))
        (vis ++ [cur]) (comp ++ [cur]) := by
  simp only [bfsComp, if_neg h]

/-- The component BFS only ever extends `visited` and `component`, and by
the same new elements. -/
theorem bfsComp_spec (g : PeerGraph) : ∀ (fuel : Nat) (q vis comp : List String),
    ∃ newly : List String,
      (bfsComp g fuel q vis comp).1 = vis ++ newly ∧
      (bfsComp g fuel q vis comp).2 = comp ++ newly := by
  intro fuel
  induction fuel with
  | zero => intro q vis comp; exact ⟨[], by simp [bfsComp]⟩
  | succ f ih =>
    intro q vis comp
    match q with
    | [] => exact ⟨[], by simp [bfsComp]⟩
    | cur :: rest =>
      by_cases h : cur ∈ vis
      · rw [bfsComp_cons_mem g f cur rest vis comp h]
        exact ih rest vis comp
      · rw [bfsComp_cons_not_mem g f cur rest vis comp h]
        obtain ⟨newly, h1, h2⟩ := ih (rest ++ (getNeighbors g cur).filter
          (fun w => w ∉ vis ++ [cur])) (vis ++ [cur]) (comp ++ [cur])
        exact ⟨cur :: newly, by rw [h1]; simp, by rw [h2]; simp⟩

/-- The component BFS preserves duplicate-freeness of the visited set. -/
theorem bfsComp_nodup (g : PeerGraph) : ∀ (fuel : Nat) (q vis comp : List String),
    vis.Nodup → (bfsComp g fuel q vis comp).1.Nodup := by
  intro fuel
  induction fuel with
  | zero => intro q vis comp h; exact h
  | succ f ih =>
    intro q vis comp h
    match q with
    | [] => exact h
    | cur :: rest =>
      by_cases hc : cur ∈ vis
      · rw [bfsComp_cons_mem g f cur rest vis comp hc]
        exact ih rest vis comp h
      · rw [bfsComp_cons_not_mem g f cur rest vis comp hc]
        refine ih _ _ _ (List.nodup_append.2 ⟨h, List.nodup_singleton cur, ?_⟩)
        intro x hx hx1
        rcases List.mem_singleton.1 hx1 with rfl
        exact hc hx

/-- Provenance of visited elements: they were already visited, queued, or
are a neighbor of some node. -/
theorem bfsComp_elems (g : PeerGraph) : ∀ (fuel : Nat) (q vis comp : List String)
    (x : String), x ∈ (bfsComp g fuel q vis comp).1 →
    x ∈ vis ∨ x ∈ q ∨ ∃ u, x ∈ getNeighbors g u := by
  intro fuel
  induction fuel with
  | zero => intro q vis comp x h; exact Or.inl h
  | succ f ih =>
    intro q vis comp x h
    match q with
    | [] => exact Or.inl h
    | cur :: rest =>
      by_cases hc : cur ∈ vis
      · rw [bfsComp_cons_mem g f cur rest vis comp hc] at h
        rcases ih rest vis comp x h with h1 | h1 | h1
        · exact Or.inl h1
        · exact Or.inr (Or.inl (List.mem_cons_of_mem cur h1))
        · exact Or.inr (Or.inr h1)
      · rw [bfsComp_cons_not_mem g f cur rest vis comp hc] at h
        rcases ih _ _ _ x h with h1 | h1 | h1
        · rcases List.mem_append.1 h1 with h2 | h2
          · exact Or.inl h2
          · rcases List.mem_singleton.1 h2 with rfl
            exact Or.inr (Or.inl (List.mem_cons_self _ rest))
        · rcases List.mem_append.1 h1 with h2 | h2
          · exact Or.inr (Or.inl (List.mem_cons_of_mem cur h2))
          · exact Or.inr (Or.inr ⟨cur, (List.mem_filter.1 h2).1⟩)
        · exact Or.inr (Or.inr h1)

/-- With an empty queue the component BFS is done, whatever the fuel. -/
theorem bfsComp_nil_queue (g : PeerGraph) : ∀ (fuel : Nat) (vis comp : List String),
    bfsComp g fuel [] vis comp = (vis, comp) := by
  intro fuel vis comp
  cases fuel <;> rfl

/-- A fresh BFS start gets its seed into the visited set. -/
theorem bfsComp_head_mem (g : PeerGraph) (fuel : Nat) (k : String)
    (vis comp : List String) (hk : k ∉ vis) (hf : 1 ≤ fuel) :
    k ∈ (bfsComp g fuel [k] vis comp).1 := by
  match fuel, hf with
  | f + 1, _ =>
    rw [bfsComp_cons_not_mem g f k [] vis comp hk]
    obtain ⟨newly, h1, _⟩ := bfsComp_spec g f _ (vis ++ [k]) (comp ++ [k])
    rw [h1]
    exact List.mem_append.2 (Or.inl (List.mem_append.2 (Or.inr (List.mem_singleton.2 rfl))))

/-- A neighborless seed forms exactly its own singleton component. -/
theorem bfsComp_isolated (g : PeerGraph) (fuel : Nat) (k : String) (vis : List String)
    (hk : k ∉ vis) (hnb : getNeighbors g k = []) (hf : 1 ≤ fuel) :
    bfsComp g fuel [k] vis [] = (vis ++ [k], [k]) := by
  match fuel, hf with
  | f + 1, _ =>
    rw [bfsComp_cons_not_mem g f k [] vis [] hk, hnb]
    show bfsComp g f [] (vis ++ [k]) ([] ++ [k]) = _
    rw [bfsComp_nil_queue]
    simp

/-- Step equation of the outer component loop: an already-visited key is
skipped. -/
theorem componentsGo_cons_mem (g : PeerGraph) (fuel : Nat) (k : String)
    (ks vis : List String) (acc : List (List String)) (h : k ∈ vis) :
    componentsGo g fuel (k :: ks) vis acc = componentsGo g fuel ks vis acc := by
  simp only [componentsGo, if_pos h]

/-- Step equation of the outer component loop: a fresh key seeds a BFS
whose component is appended. -/
theorem componentsGo_cons_not_mem (g : PeerGraph) (fuel : Nat) (k : String)
    (ks vis : List String) (acc : List (List String)) (h : k ∉ vis) :
    componentsGo g fuel (k :: ks) vis acc =
      componentsGo g fuel ks (bfsComp g fuel [k] vis []).1
        (acc ++ [(bfsComp g fuel [k] vis []).2]) := by
  simp only [componentsGo, if_neg h]

/-- The outer loop only appends components. -/
theorem componentsGo_acc_prefix (g : PeerGraph) (fuel : Nat) :
    ∀ (ks vis : List String) (acc : List (List String)),
    ∃ ext, componentsGo g fuel ks vis acc = acc ++ ext := by
  intro ks
  induction ks with
  | nil => intro vis acc; exact ⟨[], by simp [componentsGo]⟩
  | cons k ks ih =>
    intro vis acc
    by_cases h : k ∈ vis
    · rw [componentsGo_cons_mem g fuel k ks vis acc h]
      exact ih vis acc
    · rw [componentsGo_cons_not_mem g fuel k ks vis acc h]
      obtain ⟨ext, hext⟩ := ih (bfsComp g fuel [k] vis []).1
        (acc ++ [(bfsComp g fuel [k] vis []).2])
      exact ⟨(bfsComp g fuel [k] vis []).2 :: ext, by rw [hext]; simp⟩

/-- Main invariants of the component construction, threaded through the
outer loop: the flattened accumulator is exactly the visited set, stays
duplicate-free, only grows, covers every listed key, and every element is
either an initial visitee, a listed key, or someone's neighbor. -/
theorem componentsGo_main (g : PeerGraph) (fuel : Nat) (hf : 1 ≤ fuel) :
    ∀ (ks vis : List String) (acc : List (List String)),
    vis = acc.flatten → vis.Nodup →
    ((componentsGo g fuel ks vis acc).flatten.Nodup ∧
     (∀ x ∈ vis, x ∈ (componentsGo g fuel ks vis acc).flatten) ∧
     (∀ x ∈ (componentsGo g fuel ks vis acc).flatten,
        x ∈ vis ∨ x ∈ ks ∨ ∃ u, x ∈ getNeighbors g u) ∧
     (∀ k0 ∈ ks, k0 ∈ (componentsGo g fuel ks vis acc).flatten)) := by
  intro ks
  induction ks with
  | nil =>
    intro vis acc hflat hnd
    refine ⟨hflat ▸ hnd, ?_, ?_, ?_⟩
    · intro x hx; show x ∈ acc.flatten; exact hflat ▸ hx
    · intro x hx; exact Or.inl (hflat ▸ hx)
    · intro k0 hk0; exact absurd hk0 (List.not_mem_nil k0)
  | cons k ks ih =>
    intro vis acc hflat hnd
    by_cases h : k ∈ vis
    · rw [componentsGo_cons_mem g fuel k ks vis acc h]
      obtain ⟨i1, i2, i3, i4⟩ := ih vis acc hflat hnd
      refine ⟨i1, i2, ?_, ?_⟩
      · intro x hx
        rcases i3 x hx with h1 | h1 | h1
        · exact Or.inl h1
        · exact Or.inr (Or.inl (List.mem_cons_of_mem k h1))
        · exact Or.inr (Or.inr h1)
      · intro k0 hk0
        rcases List.mem_cons.1 hk0 with rfl | hk0'
        · exact i2 k0 h
        · exact i4 k0 hk0'
    · rw [componentsGo_cons_not_mem g fuel k ks vis acc h]
      obtain ⟨newly, hv, hc⟩ := bfsComp_spec g fuel [k] vis []
      have hflat1 : (bfsComp g fuel [k] vis []).1 =
          (acc ++ [(bfsComp g fuel [k] vis []).2]).flatten := by
        rw [hv, hc, List.flatten_append, ← hflat]
        simp
      have hnd1 : (bfsComp g fuel [k] vis []).1.Nodup := bfsComp_nodup g fuel [k] vis [] hnd
      obtain ⟨i1, i2, i3, i4⟩ := ih (bfsComp g fuel [k] vis []).1
        (acc ++ [(bfsComp g fuel [k] vis []).2]) hflat1 hnd1
      have hsub : ∀ x ∈ vis, x ∈ (bfsComp g fuel [k] vis []).1 := by
        intro x hx
        rw [hv]
        exact List.mem_append.2 (Or.inl hx)
      refine ⟨i1, fun x hx => i2 x (hsub x hx), ?_, ?_⟩
      · intro x hx
        rcases i3 x hx with h1 | h1 | h1
        · rcases bfsComp_elems g fuel [k] vis [] x h1 with h2 | h2 | h2
          · exact Or.inl h2
          · rcases List.mem_singleton.1 h2 with rfl
            exact Or.inr (Or.inl (List.mem_cons_self _ ks))
          · exact Or.inr (Or.inr h2)
        · exact Or.inr (Or.inl (List.mem_cons_of_mem k h1))
        · exact Or.inr (Or.inr h1)
      · intro k0 hk0
        rcases List.mem_cons.1 hk0 with rfl | hk0'
        · exact i2 k0 (bfsComp_head_mem g fuel k0 vis [] h hf)
        · exact i4 k0 hk0'

/-- A neighborless key listed in the outer loop ends up as its own
singleton component (given the symmetric neighbor relation, nothing else
can absorb it). -/
theorem componentsGo_isolated (g : PeerGraph) (fuel : Nat) (v : String)
    (hnb : getNeighbors g v = []) (hf : 1 ≤ fuel)
    (hsym : ∀ u x : String, x ∈ getNeighbors g u → u ∈ getNeighbors g x) :
    ∀ (ks vis : List String) (acc : List (List String)),
    v ∈ ks → v ∉ vis → [v] ∈ componentsGo g fuel ks vis acc := by
  intro ks
  induction ks with
  | nil => intro vis acc hv _; exact absurd hv (List.not_mem_nil v)
  | cons k ks ih =>
    intro vis acc hv hnv
    by_cases h : k ∈ vis
    · rw [componentsGo_cons_mem g fuel k ks vis acc h]
      rcases List.mem_cons.1 hv with rfl | hv'
      · exact absurd h hnv
      · exact ih vis acc hv' hnv
    · rw [componentsGo_cons_not_mem g fuel k ks vis acc h]
      by_cases hvk : v = k
      · subst hvk
        rw [bfsComp_isolated g fuel v vis hnv hnb hf]
        obtain ⟨ext, hext⟩ := componentsGo_acc_prefix g fuel ks (vis ++ [v]) (acc ++ [[v]])
        show [v] ∈ componentsGo g fuel ks (vis ++ [v]) (acc ++ [[v]])
        rw [hext]
        exact List.mem_append.2 (Or.inl (List.mem_append.2 (Or.inr (List.mem_singleton.2 rfl))))
      · rcases List.mem_cons.1 hv with rfl | hv'
        · exact absurd rfl hvk
        · refine ih _ _ hv' ?_
          intro hmem
          rcases bfsComp_elems g fuel [k] vis [] v hmem with h1 | h1 | h1
          · exact hnv h1
          · exact hvk (List.mem_singleton.1 h1)
          · obtain ⟨u, hu⟩ := h1
            have : u ∈ getNeighbors g v := hsym u v hu
            rw [hnb] at this
            exact absurd this (List.not_mem_nil u)

/-- Stable insertion permutes. -/
theorem insertBySizeDesc_perm (x : List String) : ∀ l : List (List String),
    (insertBySizeDesc x l).Perm (x :: l) := by
  intro l
  induction l with
  | nil => simp [insertBySizeDesc]
  | cons y ys ih =>
    unfold insertBySizeDesc
    by_cases h : y.length < x.length
    · rw [if_pos h]
    · rw [if_neg h]
      exact (List.Perm.cons y ih).trans (List.Perm.swap x y ys)

/-- The sort permutes its input. -/
theorem sortBySizeDesc_perm : ∀ l : List (List String), (sortBySizeDesc l).Perm l := by
  intro l
  induction l with
  | nil => simp [sortBySizeDesc]
  | cons x xs ih =>
    exact (insertBySizeDesc_perm x (sortBySizeDesc xs)).trans (List.Perm.cons x ih)

/-- Stable insertion preserves descending-by-length order. -/
theorem insertBySizeDesc_pairwise (x : List String) : ∀ l : List (List String),
    l.Pairwise (fun a b => b.length ≤ a.length) →
    (insertBySizeDesc x l).Pairwise (fun a b => b.length ≤ a.length) := by
  intro l
  induction l with
  | nil => intro _; simp [insertBySizeDesc]
  | cons y ys ih =>
    intro h
    rcases List.pairwise_cons.1 h with ⟨hy, hys⟩
    unfold insertBySizeDesc
    by_cases hlt : y.length < x.length
    · rw [if_pos hlt]
      refine List.pairwise_cons.2 ⟨?_, h⟩
      intro z hz
      rcases List.mem_cons.1 hz with rfl | hz'
      · exact Nat.le_of_lt hlt
      · exact Nat.le_trans (hy z hz') (Nat.le_of_lt hlt)
    · rw [if_neg hlt]
      refine List.pairwise_cons.2 ⟨?_, ih hys⟩
      intro z hz
      have hz2 := (insertBySizeDesc_perm x ys).mem_iff.1 hz
      rcases List.mem_cons.1 hz2 with rfl | hz'
      · exact Nat.not_lt.1 hlt
      · exact hy z hz'

/-- The sort is descending by component size. -/
theorem sortBySizeDesc_pairwise : ∀ l : List (List String),
    (sortBySizeDesc l).Pairwise (fun a b => b.length ≤ a.length) := by
  intro l
  induction l with
  | nil => simp [sortBySizeDesc]
  | cons x xs ih => exact insertBySizeDesc_pairwise x (sortBySizeDesc xs) ih

/-- C8 counterexample: an edge toward an unregistered target drags that
target into a component, so the components do not partition the registry
key set — the crawl scenario cut short by its budget produces exactly
this shape. -/
theorem components_partition_counterexample :
    "b" ∈ (findConnectedComponents gDangling).flatten ∧
    "b" ∉ keysOf gDangling.nodeData := by
  constructor <;> decide

/-- C8 (amended): when every edge endpoint is a registry key (and keys
are distinct, as a JavaScript `Map` guarantees), the returned components
exactly partition the registry key set — their concatenation is a
permutation of the keys, hence union = keys and pairwise disjoint — an
isolated registry node forms its own size-1 component, and the list is
sorted descending by size.  Without the endpoint condition the union can
strictly exceed the registry (see the counterexample), while disjointness
and sortedness still hold. -/
theorem findConnectedComponents_spec (ns : List (String × ArweaveNode))
    (es : List PeerEdge) :
    ((keysOf ns).Nodup →
      (∀ e ∈ es, e.source ∈ keysOf ns ∧ e.target ∈ keysOf ns) →
      (findConnectedComponents (buildGraph ns es)).flatten.Perm (keysOf ns)) ∧
    (∀ v ∈ keysOf ns, getNeighbors (buildGraph ns es) v = [] →
      [v] ∈ findConnectedComponents (buildGraph ns es)) ∧
    (findConnectedComponents (buildGraph ns es)).Pairwise
      (fun a b => b.length ≤ a.length) := by
  have hfuel : 1 ≤ compFuel (buildGraph ns es) := by
    unfold compFuel
    omega
  have hkeys : keysOf (buildGraph ns es).nodeData = keysOf ns := rfl
  refine ⟨?_, ?_, ?_⟩
  · intro hknd hend
    have hperm1 : (findConnectedComponents (buildGraph ns es)).flatten.Perm
        (componentsGo (buildGraph ns es) (compFuel (buildGraph ns es))
          (keysOf ns) [] []).flatten := by
      unfold findConnectedComponents
      rw [hkeys]
      exact (sortBySizeDesc_perm _).flatten
    obtain ⟨i1, _, i3, i4⟩ := componentsGo_main (buildGraph ns es)
      (compFuel (buildGraph ns es)) hfuel (keysOf ns) [] [] rfl List.nodup_nil
    have hmemiff : ∀ x, x ∈ (componentsGo (buildGraph ns es)
        (compFuel (buildGraph ns es)) (keysOf ns) [] []).flatten ↔ x ∈ keysOf ns := by
      intro x
      constructor
      · intro hx
        rcases i3 x hx with h1 | h1 | h1
        · exact absurd h1 (List.not_mem_nil x)
        · exact h1
        · obtain ⟨u, hu⟩ := h1
          rcases (getNeighbors_mem ns es u x).1 hu with ⟨e, he, _, ht⟩ | ⟨e, he, _, hs⟩
          · exact ht ▸ (hend e he).2
          · exact hs ▸ (hend e he).1
      · intro hx
        exact i4 x hx
    have hperm2 : (componentsGo (buildGraph ns es) (compFuel (buildGraph ns es))
        (keysOf ns) [] []).flatten.Perm (keysOf ns) :=
      (List.perm_ext_iff_of_nodup i1 hknd).2 hmemiff
    exact hperm1.trans hperm2
  · intro v hv hnb
    have hmem : [v] ∈ componentsGo (buildGraph ns es) (compFuel (buildGraph ns es))
        (keysOf ns) [] [] :=
      componentsGo_isolated (buildGraph ns es) (compFuel (buildGraph ns es)) v hnb hfuel
        (fun u x hx => (getNeighbors_symm ns es u x).1 hx)
        (keysOf ns) [] [] hv (List.not_mem_nil v)
    unfold findConnectedComponents
    rw [hkeys]
    exact (sortBySizeDesc_perm _).mem_iff.2 hmem
  · unfold findConnectedComponents
    exact sortBySizeDesc_pairwise _

/-- C8 witness: on the end-to-end fixture the components exactly cover
the three registered addresses. -/
theorem findConnectedComponents_spec_witness :
    (findConnectedComponents (buildGraph nsScenario esScenario)).flatten.Perm
      (keysOf nsScenario) :=
  (findConnectedComponents_spec nsScenario esScenario).1 (by decide) (by decide)

/-- The port-range guard of `processNode`, phrased through `portOk`. -/
theorem portOk_iff (address : String) :
    portOk address = true ↔
      ¬(portOfAddress address < 1 ∨ portOfAddress address > 65535) := by
  unfold portOk
  rw [Bool.and_eq_true, decide_eq_true_iff, decide_eq_true_iff]
  omega

/-- The inbound-peer update never changes the registry keys. -/
theorem pushInbound_keys (ns : List (String × ArweaveNode)) (k addr : String) :
    keysOf (pushInbound ns k addr) = keysOf ns := by
  unfold pushInbound keysOf
  rw [List.map_map]
  apply List.map_congr_left
  intro p _
  by_cases h : p.1 = k <;> simp [h]

/-- Setting a fresh key appends it to the registry key list. -/
theorem jsMapSet_keys_of_not_mem (ns : List (String × ArweaveNode)) (k : String)
    (v : ArweaveNode) (h : k ∉ keysOf ns) :
    keysOf (jsMapSet ns k v) = keysOf ns ++ [k] := by
  unfold jsMapSet
  have hfind : ns.find? (fun p => p.1 = k) = none := by
    rw [List.find?_eq_none]
    intro p hp
    simp only [decide_eq_true_iff]
    intro hpk
    exact h (hpk ▸ List.mem_map.2 ⟨p, hp, rfl⟩)
  rw [hfind]
  simp [keysOf]

/-- Step equation of the per-peer block: an unnormalizable peer is
dropped silently. -/
theorem processPeer_none (cfg : CrawlerConfig) (address : String) (s : CrawlState)
    (peerAddr : String) (h : normalizeAddress peerAddr = none) :
    processPeer cfg address s peerAddr = s := by
  unfold processPeer
  rw [h]

/-- Step equation of the per-peer block, normalized case: the edge and
inbound updates always happen; only the enqueueing is conditional. -/
theorem processPeer_some (cfg : CrawlerConfig) (address : String) (s : CrawlState)
    (peerAddr np : String) (h : normalizeAddress peerAddr = some np) :
    processPeer cfg address s peerAddr =
      (if np ∉ s.visited ∧ (pushInbound s.nodes np address).length < cfg.maxNodes ∧
          s.queue.length < cfg.maxNodes * 3 then
        { visited := s.visited
          queue := s.queue ++ [np]
          nodes := pushInbound s.nodes np address
          edges := s.edges ++
            [{ source := address, target := np, discoveredAt := 0, bidirectional := false }]
          responsiveCount := s.responsiveCount
          failedCount := s.failedCount
          processed := s.processed }
      else
        { visited := s.visited
          queue := s.queue
          nodes := pushInbound s.nodes np address
          edges := s.edges ++
            [{ source := address, target := np, discoveredAt := 0, bidirectional := false }]
          responsiveCount := s.responsiveCount
          failedCount := s.failedCount
          processed := s.processed }) := by
  unfold processPeer
  rw [h]

/-- The per-peer block never changes registry keys, the visited set, or
the processing log, and only appends edges whose source is the node being
processed. -/
theorem processPeer_proj (cfg : CrawlerConfig) (address : String) (s : CrawlState)
    (peerAddr : String) :
    keysOf (processPeer cfg address s peerAddr).nodes = keysOf s.nodes ∧
    (processPeer cfg address s peerAddr).visited = s.visited ∧
    (processPeer cfg address s peerAddr).processed = s.processed ∧
    (∀ e ∈ (processPeer cfg address s peerAddr).edges,
      e ∈ s.edges ∨ e.source = address) := by
  cases hn : normalizeAddress peerAddr with
  | none =>
    rw [processPeer_none cfg address s peerAddr hn]
    exact ⟨rfl, rfl, rfl, fun e he => Or.inl he⟩
  | some np =>
    rw [processPeer_some cfg address s peerAddr np hn]
    split <;>
    · refine ⟨pushInbound_keys s.nodes np address, rfl, rfl, ?_⟩
      intro e he
      rcases List.mem_append.1 he with h1 | h1
      · exact Or.inl h1
      · rcases List.mem_singleton.1 h1 with rfl
        exact Or.inr rfl

/-- `processPeer_proj`, folded over the whole peer list. -/
theorem processPeers_fold_proj (cfg : CrawlerConfig) (address : String) :
    ∀ (peers : List String) (s : CrawlState),
    keysOf (peers.foldl (processPeer cfg address) s).nodes = keysOf s.nodes ∧
    (peers.foldl (processPeer cfg address) s).visited = s.visited ∧
    (peers.foldl (processPeer cfg address) s).processed = s.processed ∧
    (∀ e ∈ (peers.foldl (processPeer cfg address) s).edges,
      e ∈ s.edges ∨ e.source = address) := by
  intro peers
  induction peers with
  | nil => intro s; exact ⟨rfl, rfl, rfl, fun e he => Or.inl he⟩
  | cons p ps ih =>
    intro s
    rw [List.foldl_cons]
    obtain ⟨k1, v1, p1, e1⟩ := ih (processPeer cfg address s p)
    obtain ⟨k0, v0, p0, e0⟩ := processPeer_proj cfg address s p
    refine ⟨k1.trans k0, v1.trans v0, p1.trans p0, ?_⟩
    intro e he
    rcases e1 e he with h1 | h1
    · exact e0 e h1
    · exact Or.inr h1

/-- `processNode` on a fresh address: it registers the address exactly
when the port is in range, never touches the visited set or the log, and
only appends edges sourced at the processed address. -/
theorem processNode_spec (cfg : CrawlerConfig) (o : NetworkOracle) (st : CrawlState)
    (address : String) (hnotkey : address ∉ keysOf st.nodes) :
    keysOf (processNode cfg o st address).nodes =
      (if portOk address then keysOf st.nodes ++ [address] else keysOf st.nodes) ∧
    (processNode cfg o st address).visited = st.visited ∧
    (processNode cfg o st address).processed = st.processed ∧
    (∀ e ∈ (processNode cfg o st address).edges,
      e ∈ st.edges ∨ e.source = address) := by
  by_cases hg : portOfAddress address < 1 ∨ portOfAddress address > 65535
  · have hpo : portOk address = false := by
      rcases Bool.eq_false_or_eq_true (portOk address) with hb | hb
      · exact absurd hg ((portOk_iff address).1 hb)
      · exact hb
    have hstep : processNode cfg o st address = st := by
      simp only [processNode]
      rw [if_pos hg]
    rw [hstep, hpo]
    exact ⟨by simp, rfl, rfl, fun e he => Or.inl he⟩
  · have hpo : portOk address = true := (portOk_iff address).2 hg
    rw [hpo]
    simp only [processNode]
    rw [if_neg hg]
    split
    · -- retryInfo failed: the node is registered unresponsive
      refine ⟨?_, rfl, rfl, fun e he => Or.inl he⟩
      show keysOf (jsMapSet st.nodes address _) = _
      rw [jsMapSet_keys_of_not_mem st.nodes address _ hnotkey, if_pos trivial]
    · -- retryInfo succeeded
      by_cases hp : o.peersAt ⟨((splitOnChar ':' address.toList).headD [])⟩
          (portOfAddress address) = []
      · rw [if_pos hp]
        refine ⟨?_, rfl, rfl, fun e he => Or.inl he⟩
        show keysOf (jsMapSet st.nodes address _) = _
        rw [jsMapSet_keys_of_not_mem st.nodes address _ hnotkey, if_pos trivial]
      · rw [if_neg hp]
        obtain ⟨hk, hv, hpr, he⟩ := processPeers_fold_proj cfg address
          (o.peersAt ⟨((splitOnChar ':' address.toList).headD [])⟩ (portOfAddress address))
          { st with responsiveCount := st.responsiveCount + 1 }
        refine ⟨?_, hv, hpr, ?_⟩
        · show keysOf (jsMapSet _ address _) = _
          rw [jsMapSet_keys_of_not_mem _ address _ (by rw [hk]; exact hnotkey),
            hk, if_pos trivial]
        · intro e hee
          exact he e hee

/-- The atomic pop-and-mark returns an unvisited address and appends
exactly it to the visited set. -/
theorem popNextGo_spec : ∀ (q vis : List String) (a : String) (v2 q2 : List String),
    popNextGo vis q = some (a, v2, q2) → a ∉ vis ∧ v2 = vis ++ [a] := by
  intro q
  induction q with
  | nil => intro vis a v2 q2 h; exact absurd h (by simp [popNextGo])
  | cons c rest ih =>
    intro vis a v2 q2 h
    unfold popNextGo at h
    by_cases hc : c ∈ vis
    · rw [if_pos hc] at h
      exact ih vis a v2 q2 h
    · rw [if_neg hc] at h
      rcases Option.some.inj h with h1
      obtain ⟨rfl, rfl, rfl⟩ : c = a ∧ vis ++ [c] = v2 ∧ rest = q2 := by
        refine ⟨congrArg Prod.fst h1, ?_, ?_⟩
        · exact congrArg Prod.fst (congrArg Prod.snd h1)
        · exact congrArg Prod.snd (congrArg Prod.snd h1)
      exact ⟨hc, rfl⟩

/-- The crawl-loop invariant is inductive. -/
theorem crawlLoop_inv (cfg : CrawlerConfig) (o : NetworkOracle) :
    ∀ (fuel : Nat) (st : CrawlState), crawlInv cfg st →
    crawlInv cfg (crawlLoop cfg o fuel st) := by
  intro fuel
  induction fuel with
  | zero => intro st h; exact h
  | succ f ih =>
    intro st h
    obtain ⟨hkeys, hnd, hproc, hlen, hedges⟩ := h
    show crawlInv cfg (if st.nodes.length < cfg.maxNodes then _ else st)
    by_cases hb : st.nodes.length < cfg.maxNodes
    · rw [if_pos hb]
      cases hpop : popNextGo st.visited st.queue with
      | none => exact ⟨hkeys, hnd, hproc, hlen, hedges⟩
      | some t =>
        obtain ⟨addr, vis2, q2⟩ := t
        obtain ⟨hnv, hvis2⟩ := popNextGo_spec st.queue st.visited addr vis2 q2 hpop
        set stMid : CrawlState :=
          { st with
            visited := vis2
            queue := q2
            processed := st.processed ++ [addr] } with hstMid
        have hnotkey : addr ∉ keysOf stMid.nodes := by
          intro hmem
          have : addr ∈ st.visited.filter portOk := hkeys ▸ hmem
          exact hnv (List.mem_of_mem_filter this)
        obtain ⟨pk, pv, pp, pe⟩ := processNode_spec cfg o stMid addr hnotkey
        refine ih (processNode cfg o stMid addr) ⟨?_, ?_, ?_, ?_, ?_⟩
        · rw [pk, pv]
          show _ = vis2.filter portOk
          rw [hvis2, List.filter_append]
          by_cases hok : portOk addr
          · rw [if_pos hok]
            show _ = st.visited.filter portOk ++ [addr].filter portOk
            rw [show ([addr].filter portOk) = [addr] from by simp [hok]]
            rw [← hkeys]
          · rw [if_neg hok]
            show _ = st.visited.filter portOk ++ [addr].filter portOk
            rw [show ([addr].filter portOk) = [] from
              by simp [Bool.eq_false_iff.2 (fun hx => hok hx)]]
            rw [← hkeys]
            simp
        · rw [pv]
          show vis2.Nodup
          rw [hvis2]
          exact List.nodup_append.2 ⟨hnd, List.nodup_singleton addr, by
            intro x hx hx1
            rcases List.mem_singleton.1 hx1 with rfl
            exact hnv hx⟩
        · rw [pp, pv]
          show st.processed ++ [addr] = vis2
          rw [hproc, hvis2]
        · have hlen2 : (processNode cfg o stMid addr).nodes.length =
              (keysOf (processNode cfg o stMid addr).nodes).length := by
            unfold keysOf
            rw [List.length_map]
          rw [hlen2, pk]
          by_cases hok : portOk addr
          · rw [if_pos hok]
            have : (keysOf stMid.nodes).length = st.nodes.length := by
              unfold keysOf
              rw [List.length_map]
            simp only [List.length_append, this]
            simp
            omega
          · rw [if_neg hok]
            have : (keysOf stMid.nodes).length = st.nodes.length := by
              unfold keysOf
              rw [List.length_map]
            rw [this]
            omega
        · intro e he
          rcases pe e he with h1 | h1
          · have hsrc : e.source ∈ keysOf stMid.nodes := hedges e h1
            rw [pk]
            by_cases hok : portOk addr
            · rw [if_pos hok]
              exact List.mem_append.2 (Or.inl hsrc)
            · rw [if_neg hok]
              exact hsrc
          · -- a new edge: its source is the processed address, and edges
            -- are only recorded on the in-range path, so it is registered
            have hok : portOk addr = true := by
              by_contra hok0
              have hg : portOfAddress addr < 1 ∨ portOfAddress addr > 65535 := by
                by_contra hgg
                exact hok0 ((portOk_iff addr).2 hgg)
              have hstep : processNode cfg o stMid addr = stMid := by
                simp only [processNode]
                rw [if_pos hg]
              rw [hstep] at he
              have hsrc : e.source ∈ keysOf st.nodes := hedges e he
              rw [h1] at hsrc
              exact hnotkey hsrc
            rw [pk, if_pos hok, h1]
            exact List.mem_append.2 (Or.inr (List.mem_singleton.2 rfl))
    · rw [if_neg hb]
      exact ⟨hkeys, hnd, hproc, hlen, hedges⟩

/-- The invariant holds at crawl completion, from the empty start. -/
theorem crawl_inv (cfg : CrawlerConfig) (o : NetworkOracle) (fuel : Nat) :
    crawlInv cfg (crawl cfg o fuel) := by
  apply crawlLoop_inv
  exact ⟨rfl, List.nodup_nil, rfl, Nat.zero_le _, fun e he => absurd he (List.not_mem_nil e)⟩

/-- C1 counterexample: with a budget of one node, the seed's reported
peer gets an edge recorded but is never dequeued, so the edge's target is
absent from the final node registry — no placeholder entry exists. -/
theorem crawl_edge_target_counterexample :
    ¬ ∀ e ∈ (crawl cfgFxA oracleFxA 10).edges,
      e.target ∈ keysOf (crawl cfgFxA oracleFxA 10).nodes := by decide

/-- C1 (amended): every recorded edge's source is a key of the final node
registry; the target need not be — a peer that is never dequeued before
the budget or frontier cap hits, or whose port is out of range, stays an
edge target without any registry entry. -/
theorem crawl_edge_source_registered (cfg : CrawlerConfig) (o : NetworkOracle)
    (fuel : Nat) :
    ∀ e ∈ (crawl cfg o fuel).edges, e.source ∈ keysOf (crawl cfg o fuel).nodes :=
  (crawl_inv cfg o fuel).2.2.2.2

/-- C1 witness: fixture A's single recorded edge has its source
registered. -/
theorem crawl_edge_source_registered_witness :
    fxAEdge.source ∈ keysOf (crawl cfgFxA oracleFxA 10).nodes :=
  crawl_edge_source_registered cfgFxA oracleFxA 10 fxAEdge (by decide)

/-- C2 counterexample: the seed `1.2.3.4:99999` normalizes fine (any
numeral is accepted as a port), is dequeued and marked visited, but
`processNode` silently drops it at the port-range guard — so the visited
set is strictly larger than the node registry at completion. -/
theorem crawl_visited_size_counterexample :
    (crawl cfgFxB oracleFxB 10).visited.length ≠
      (crawl cfgFxB oracleFxB 10).nodes.length := by decide

/-- C2 (amended): with a single crawl worker (`concurrency = 1`, the
configuration under which the worker loop runs sequentially and the
embedding is exact): at crawl completion the registry holds at most
`maxNodes` entries; each address is processed at most once (the
processing log is duplicate-free and equals the visited list); and the
registry keys are exactly the visited addresses whose port passes the
`1..65535` range check, so `|visited| ≥ |registry|`.  With two or more
workers the `nodes.size < maxNodes` check at the top of the worker loop
races with registrations still pending across awaits in other workers,
and the registry can overrun `maxNodes`; the budget bound is therefore
stated for the single-worker configuration only. -/
theorem crawl_budget_visited_spec (cfg : CrawlerConfig) (o : NetworkOracle)
    (fuel : Nat) (_hone : cfg.concurrency = 1) :
    (crawl cfg o fuel).nodes.length ≤ cfg.maxNodes ∧
    (crawl cfg o fuel).processed.Nodup ∧
    (crawl cfg o fuel).processed = (crawl cfg o fuel).visited ∧
    keysOf (crawl cfg o fuel).nodes = (crawl cfg o fuel).visited.filter portOk ∧
    (crawl cfg o fuel).nodes.length ≤ (crawl cfg o fuel).visited.length := by
  obtain ⟨hkeys, hnd, hproc, hlen, _⟩ := crawl_inv cfg o fuel
  refine ⟨hlen, hproc ▸ hnd, hproc, hkeys, ?_⟩
  have h1 : (crawl cfg o fuel).nodes.length = (keysOf (crawl cfg o fuel).nodes).length := by
    unfold keysOf
    rw [List.length_map]
  rw [h1, hkeys]
  exact List.length_filter_le portOk (crawl cfg o fuel).visited

/-- C2 witness: fixture B (one worker, one out-of-range-port seed)
satisfies every conjunct of the amended statement. -/
theorem crawl_budget_visited_spec_witness :
    (crawl cfgFxB oracleFxB 10).nodes.length ≤ cfgFxB.maxNodes ∧
    (crawl cfgFxB oracleFxB 10).processed.Nodup ∧
    (crawl cfgFxB oracleFxB 10).processed = (crawl cfgFxB oracleFxB 10).visited ∧
    keysOf (crawl cfgFxB oracleFxB 10).nodes =
      (crawl cfgFxB oracleFxB 10).visited.filter portOk ∧
    (crawl cfgFxB oracleFxB 10).nodes.length ≤
      (crawl cfgFxB oracleFxB 10).visited.length :=
  crawl_budget_visited_spec cfgFxB oracleFxB 10 rfl

/-- `bfsNeighborStep` when `w` is seen for the first time: enqueue it,
set its distance, and (since the just-written distance matches) count the
path and record the predecessor. -/
theorem bfsNeighborStep_eq_pos (st : BrandesState) (v w : String)
    (hc1 : st.dist w = some (-1)) :
    bfsNeighborStep st v w =
      (if updF st.dist w (some ((st.dist v).getD 0 + 1)) w =
          some ((st.dist v).getD 0 + 1) then
        { stack := st.stack
          preds := updF st.preds w (st.preds w ++ [v])
          sigma := updF st.sigma w (st.sigma w + st.sigma v)
          dist := updF st.dist w (some ((st.dist v).getD 0 + 1))
          queue := st.queue ++ [w] }
      else
        { stack := st.stack
          preds := st.preds
          sigma := st.sigma
          dist := updF st.dist w (some ((st.dist v).getD 0 + 1))
          queue := st.queue ++ [w] }) := by
  simp only [bfsNeighborStep]
  rw [if_pos hc1]

/-- `bfsNeighborStep` when `w` was already discovered: only the
shortest-path test remains. -/
theorem bfsNeighborStep_eq_neg (st : BrandesState) (v w : String)
    (hc1 : ¬ st.dist w = some (-1)) :
    bfsNeighborStep st v w =
      (if st.dist w = some ((st.dist v).getD 0 + 1) then
        { stack := st.stack
          preds := updF st.preds w (st.preds w ++ [v])
          sigma := updF st.sigma w (st.sigma w + st.sigma v)
          dist := st.dist
          queue := st.queue }
      else st) := by
  simp only [bfsNeighborStep]
  rw [if_neg hc1]

/-- One neighbor step keeps every path count nonnegative. -/
theorem bfsNeighborStep_sigma_nonneg (st : BrandesState) (v w : String)
    (h : ∀ x, 0 ≤ st.sigma x) : ∀ x, 0 ≤ (bfsNeighborStep st v w).sigma x := by
  intro x
  by_cases hc1 : st.dist w = some (-1)
  · rw [bfsNeighborStep_eq_pos st v w hc1]
    by_cases hc2 : updF st.dist w (some ((st.dist v).getD 0 + 1)) w =
        some ((st.dist v).getD 0 + 1)
    · rw [if_pos hc2]
      show 0 ≤ updF st.sigma w (st.sigma w + st.sigma v) x
      unfold updF
      by_cases hx : x = w
      · rw [if_pos hx]
        exact add_nonneg (h w) (h v)
      · rw [if_neg hx]
        exact h x
    · rw [if_neg hc2]
      exact h x
  · rw [bfsNeighborStep_eq_neg st v w hc1]
    by_cases hc2 : st.dist w = some ((st.dist v).getD 0 + 1)
    · rw [if_pos hc2]
      show 0 ≤ updF st.sigma w (st.sigma w + st.sigma v) x
      unfold updF
      by_cases hx : x = w
      · rw [if_pos hx]
        exact add_nonneg (h w) (h v)
      · rw [if_neg hx]
        exact h x
    · rw [if_neg hc2]
      exact h x

/-- Folding the neighbor step over a neighbor list keeps path counts
nonnegative. -/
theorem bfsFold_sigma_nonneg (v : String) : ∀ (ws : List String) (st : BrandesState),
    (∀ x, 0 ≤ st.sigma x) →
    ∀ x, 0 ≤ (ws.foldl (fun s w => bfsNeighborStep s v w) st).sigma x := by
  intro ws
  induction ws with
  | nil => intro st h x; exact h x
  | cons w ws ih =>
    intro st h x
    rw [List.foldl_cons]
    exact ih (bfsNeighborStep st v w) (bfsNeighborStep_sigma_nonneg st v w h) x

/-- Step equation of the BFS loop. -/
theorem bfsLoop_succ (g : PeerGraph) (f : Nat) (st : BrandesState) :
    bfsLoop g (f + 1) st =
      (match st.queue with
      | [] => st
      | v :: rest =>
        bfsLoop g f ((getNeighbors g v).foldl (fun s w => bfsNeighborStep s v w)
          { st with queue := rest, stack := v :: st.stack })) := rfl

/-- The whole BFS keeps path counts nonnegative. -/
theorem bfsLoop_sigma_nonneg (g : PeerGraph) : ∀ (fuel : Nat) (st : BrandesState),
    (∀ x, 0 ≤ st.sigma x) → ∀ x, 0 ≤ (bfsLoop g fuel st).sigma x := by
  intro fuel
  induction fuel with
  | zero => intro st h x; exact h x
  | succ f ih =>
    intro st h x
    rw [bfsLoop_succ]
    cases hq : st.queue with
    | nil => exact h x
    | cons v rest =>
      exact ih _ (bfsFold_sigma_nonneg v (getNeighbors g v)
        { st with queue := rest, stack := v :: st.stack } h) x

/-- Repeatedly writing a nonnegative constant keeps a map nonnegative. -/
theorem foldl_updF_nonneg (c : ℚ) (hc : 0 ≤ c) : ∀ (ks : List String) (m : String → ℚ),
    (∀ x, 0 ≤ m x) → ∀ x, 0 ≤ (ks.foldl (fun m k => updF m k c) m) x := by
  intro ks
  induction ks with
  | nil => intro m h x; exact h x
  | cons k ks ih =>
    intro m h x
    rw [List.foldl_cons]
    refine ih (updF m k c) (fun y => ?_) x
    unfold updF
    by_cases hy : y = k
    · rw [if_pos hy]; exact hc
    · rw [if_neg hy]; exact h y

/-- The predecessor fold of the accumulation keeps dependencies
nonnegative. -/
theorem accumPreds_nonneg (sigma : String → ℚ) (hs : ∀ x, 0 ≤ sigma x) (w : String) :
    ∀ (ps : List String) (delta : String → ℚ), (∀ x, 0 ≤ delta x) →
    ∀ x, 0 ≤ (ps.foldl (fun d v => updF d v (d v + (sigma v / sigma w) * (1 + d w)))
      delta) x := by
  intro ps
  induction ps with
  | nil => intro delta h x; exact h x
  | cons v ps ih =>
    intro delta h x
    rw [List.foldl_cons]
    refine ih _ (fun y => ?_) x
    unfold updF
    by_cases hy : y = v
    · rw [if_pos hy]
      refine add_nonneg (h v) (mul_nonneg (div_nonneg (hs v) (hs w)) ?_)
      exact add_nonneg zero_le_one (h w)
    · rw [if_neg hy]
      exact h y

/-- The accumulation keeps the running betweenness map nonnegative. -/
theorem accumGo_nonneg (preds : String → List String) (sigma : String → ℚ)
    (hs : ∀ x, 0 ≤ sigma x) (s : String) :
    ∀ (stack : List String) (delta bw : String → ℚ),
    (∀ x, 0 ≤ delta x) → (∀ x, 0 ≤ bw x) →
    ∀ x, 0 ≤ (accumGo preds sigma s stack delta bw).2 x := by
  intro stack
  induction stack with
  | nil => intro delta bw _ hbw x; exact hbw x
  | cons w rest ih =>
    intro delta bw hd hbw x
    show 0 ≤ (accumGo preds sigma s rest _ _).2 x
    have hd2 : ∀ y, 0 ≤ ((preds w).foldl
        (fun d v => updF d v (d v + (sigma v / sigma w) * (1 + d w))) delta) y :=
      accumPreds_nonneg sigma hs w (preds w) delta hd
    refine ih _ _ hd2 (fun y => ?_) x
    by_cases hw : w = s
    · rw [if_pos hw]
      exact hbw y
    · rw [if_neg hw]
      unfold updF
      by_cases hy : y = w
      · rw [if_pos hy]
        exact add_nonneg (hbw w) (hd2 w)
      · rw [if_neg hy]
        exact hbw y

/-- One Brandes source run keeps the running betweenness map
nonnegative. -/
theorem brandesSource_nonneg (g : PeerGraph) (ks : List String) (bw : String → ℚ)
    (s : String) (hbw : ∀ x, 0 ≤ bw x) :
    ∀ x, 0 ≤ brandesSource g ks bw s x := by
  intro x
  simp only [brandesSource]
  have hsig0 : ∀ y,
      0 ≤ (updF (ks.foldl (fun m k => updF m k 0) (fun _ => (0 : ℚ))) s 1) y := by
    intro y
    unfold updF
    by_cases hy : y = s
    · rw [if_pos hy]; norm_num
    · rw [if_neg hy]
      exact foldl_updF_nonneg 0 le_rfl ks (fun _ => 0) (fun _ => le_rfl) y
  refine accumGo_nonneg _ _ ?_ s _ _ bw
    (foldl_updF_nonneg 0 le_rfl ks (fun _ => 0) (fun _ => le_rfl)) hbw x
  exact bfsLoop_sigma_nonneg g ks.length _ hsig0

/-- The full betweenness map is pointwise nonnegative. -/
theorem betweenness_nonneg (g : PeerGraph) :
    ∀ x, 0 ≤ calculateBetweennessCentrality g x := by
  intro x
  simp only [calculateBetweennessCentrality]
  have hfold : ∀ (ss : List String) (bw : String → ℚ), (∀ y, 0 ≤ bw y) →
      ∀ y, 0 ≤ (ss.foldl (fun b s => brandesSource g (keysOf g.nodeData) b s) bw) y := by
    intro ss
    induction ss with
    | nil => intro bw h y; exact h y
    | cons s ss ih =>
      intro bw h y
      rw [List.foldl_cons]
      exact ih _ (brandesSource_nonneg g (keysOf g.nodeData) bw s h) y
  have hbw : 0 ≤ ((keysOf g.nodeData).foldl
      (fun b s => brandesSource g (keysOf g.nodeData) b s)
      ((keysOf g.nodeData).foldl (fun m k => updF m k 0) (fun _ => 0))) x :=
    hfold (keysOf g.nodeData) _
      (foldl_updF_nonneg 0 le_rfl (keysOf g.nodeData) (fun _ => 0) (fun _ => le_rfl)) x
  have hnorm : (0 : ℚ) ≤ (if 2 < (keysOf g.nodeData).length then
      2 / ((((keysOf g.nodeData).length : ℚ) - 1) * (((keysOf g.nodeData).length : ℚ) - 2))
    else 1) := by
    by_cases hn : 2 < (keysOf g.nodeData).length
    · rw [if_pos hn]
      have h3 : (3 : ℚ) ≤ ((keysOf g.nodeData).length : ℚ) := by
        exact_mod_cast hn
      apply div_nonneg (by norm_num)
      nlinarith
    · rw [if_neg hn]
      norm_num
  exact mul_nonneg hbw hnorm

/-- The cycle name of index `i` has length `i`. -/
theorem cName_length (i : Nat) : (cName i).length = i := by
  show (List.replicate i 'a').length = i
  exact List.length_replicate i 'a'

/-- Cycle names are injective. -/
theorem cName_inj {i j : Nat} (h : cName i = cName j) : i = j := by
  have := congrArg String.length h
  rwa [cName_length, cName_length] at this

/-- The rotation moves cycle names one step clockwise. -/
theorem rotFun_cName (n i : Nat) (hi : i < n) :
    rotFun n (cName i) = cName ((i + 1) % n) := by
  unfold rotFun
  rw [if_pos (by rw [cName_length]; exact ⟨rfl, hi⟩), cName_length]

/-- The rotation fixes everything off the cycle. -/
theorem rotFun_outside (n : Nat) (u : String) (hu : ∀ i, i < n → u ≠ cName i) :
    rotFun n u = u := by
  unfold rotFun
  rw [if_neg]
  rintro ⟨h1, h2⟩
  exact hu u.length h2 h1

/-- The rotation is injective. -/
theorem rotFun_inj (n : Nat) : Function.Injective (rotFun n) := by
  intro x y h
  unfold rotFun at h
  by_cases hx : x = cName x.length ∧ x.length < n
  · rw [if_pos hx] at h
    by_cases hy : y = cName y.length ∧ y.length < n
    · rw [if_pos hy] at h
      have hxy : (x.length + 1) % n = (y.length + 1) % n := cName_inj h
      have hlen : x.length = y.length := by
        rcases hx with ⟨_, hx2⟩
        rcases hy with ⟨_, hy2⟩
        rcases Nat.lt_or_ge (x.length + 1) n with hb | hb
        · rcases Nat.lt_or_ge (y.length + 1) n with hc | hc
          · rw [Nat.mod_eq_of_lt hb, Nat.mod_eq_of_lt hc] at hxy
            omega
          · have hyn : y.length + 1 = n := by omega
            rw [Nat.mod_eq_of_lt hb, hyn, Nat.mod_self] at hxy
            omega
        · have hxn : x.length + 1 = n := by omega
          rcases Nat.lt_or_ge (y.length + 1) n with hc | hc
          · rw [hxn, Nat.mod_self, Nat.mod_eq_of_lt hc] at hxy
            omega
          · have hyn : y.length + 1 = n := by omega
            omega
      rw [hx.1, hy.1, hlen]
    · rw [if_neg hy] at h
      exfalso
      have hylen : y.length = (x.length + 1) % n := by
        rw [← h, cName_length]
      have hyc : y = cName y.length := by rw [← h, cName_length]
      have hyn : y.length < n := by
        rw [hylen]
        exact Nat.mod_lt _ (by omega)
      exact hy ⟨hyc, hyn⟩
  · rw [if_neg hx] at h
    by_cases hy : y = cName y.length ∧ y.length < n
    · rw [if_pos hy] at h
      exfalso
      have hxlen : x.length = (y.length + 1) % n := by
        rw [h, cName_length]
      have hxc : x = cName x.length := by rw [h, cName_length]
      have hxn : x.length < n := by
        rw [hxlen]
        exact Nat.mod_lt _ (by omega)
      exact hx ⟨hxc, hxn⟩
    · rwa [if_neg hy] at h

/-- The registry keys of the n-cycle are its names in order. -/
theorem cycle_keys (n : Nat) : keysOf (cycleNodes n) = (List.range n).map cName := by
  unfold keysOf cycleNodes
  rw [List.map_map]
  rfl

/-- Exact adjacency through an `addEdge` fold whose keys are hit at most
once: the entry is the singleton written for the unique matching edge. -/
theorem addFold_getD_single (f g : PeerEdge → String) :
    ∀ (es : List PeerEdge) (m : AdjMap) (x : String) (e0 : PeerEdge),
    (es.map f).Nodup → e0 ∈ es → f e0 = x → (m x).getD [] = [] →
    ((es.foldl (fun m e => addEdgeTo m (f e) (g e)) m) x).getD [] = [g e0] := by
  intro es
  induction es with
  | nil => intro m x e0 _ h0 _ _; exact absurd h0 (List.not_mem_nil e0)
  | cons e rest ih =>
    intro m x e0 hnd h0 hfx hmx
    rw [List.foldl_cons]
    have hnd2 : (rest.map f).Nodup := (List.nodup_cons.1 hnd).2
    have hne : f e ∉ rest.map f := (List.nodup_cons.1 hnd).1
    rcases List.mem_cons.1 h0 with rfl | h0r
    · -- the head is the matching edge; nothing later touches `x`
      have hrest : ∀ e2 ∈ rest, f e2 ≠ x := by
        intro e2 he2 hfe2
        have h4 : x ∈ List.map f rest := List.mem_map.2 ⟨e2, he2, hfe2⟩
        rw [← hfx] at h4
        exact hne h4
      rw [addFold_eq_of_ne f g rest _ x hrest]
      have hmx2 : (m (f e0)).getD [] = [] := by
        rw [hfx]
        exact hmx
      rw [addEdgeTo_getD, if_pos hfx.symm, hmx2]
      show setAdd [] (g e0) = [g e0]
      unfold setAdd
      rw [if_neg (List.not_mem_nil (g e0))]
      rfl
    · -- the head writes elsewhere; recurse
      have hfex : f e ≠ x := by
        intro hfe
        have h4 : x ∈ List.map f rest := List.mem_map.2 ⟨e0, h0r, hfx⟩
        rw [← hfe] at h4
        exact hne h4
      refine ih _ x e0 hnd2 h0r hfx ?_
      rw [addEdgeTo_getD, if_neg (fun hxe : x = f e => hfex hxe.symm)]
      exact hmx

/-- Forward adjacency of a cycle node: its clockwise successor. -/
theorem cycle_adj (n i : Nat) (hi : i < n) :
    (((cycleGraph n).adjacencyList (cName i)).getD []) = [cName ((i + 1) % n)] := by
  show ((((cycleEdges n).foldl (fun m e => addEdgeTo m e.source e.target)
      ((cycleNodes n).foldl (fun m p => adjSet m p.1 []) (fun _ => none)))
        (cName i)).getD []) = _
  have hnd : ((cycleEdges n).map (fun e => e.source)).Nodup := by
    unfold cycleEdges
    rw [List.map_map]
    have : ((fun e => PeerEdge.source e) ∘ fun i => mkEdgeFx (cName i) (cName ((i + 1) % n)))
        = cName := rfl
    rw [this]
    exact (List.nodup_range n).map (fun a b h => cName_inj h)
  have hmem : mkEdgeFx (cName i) (cName ((i + 1) % n)) ∈ cycleEdges n :=
    List.mem_map.2 ⟨i, List.mem_range.2 hi, rfl⟩
  exact addFold_getD_single (fun e => e.source) (fun e => e.target) (cycleEdges n)
    _ (cName i) _ hnd hmem rfl (initFold_getD (cycleNodes n) (fun _ => none) (fun _ => rfl) (cName i))

/-- Successor indices modulo `n` are injective below `n`. -/
theorem succ_mod_inj (n a b : Nat) (ha : a < n) (hb : b < n)
    (h : (a + 1) % n = (b + 1) % n) : a = b := by
  rcases Nat.lt_or_ge (a + 1) n with h1 | h1
  · rcases Nat.lt_or_ge (b + 1) n with h2 | h2
    · rw [Nat.mod_eq_of_lt h1, Nat.mod_eq_of_lt h2] at h
      omega
    · have hb1 : b + 1 = n := by omega
      rw [Nat.mod_eq_of_lt h1, hb1, Nat.mod_self] at h
      omega
  · have ha1 : a + 1 = n := by omega
    rcases Nat.lt_or_ge (b + 1) n with h2 | h2
    · rw [ha1, Nat.mod_self, Nat.mod_eq_of_lt h2] at h
      omega
    · omega

/-- The predecessor index steps back to `i` on taking a successor. -/
theorem pred_succ_mod (n i : Nat) (hn : 1 ≤ n) (hi : i < n) :
    ((i + n - 1) % n + 1) % n = i := by
  rw [Nat.mod_add_mod]
  have h1 : i + n - 1 + 1 = i + n := by omega
  rw [h1, Nat.add_mod_right]
  exact Nat.mod_eq_of_lt hi

/-- Reverse adjacency of a cycle node: its counter-clockwise
predecessor. -/
theorem cycle_radj (n i : Nat) (hn : 1 ≤ n) (hi : i < n) :
    (((cycleGraph n).reverseAdjacencyList (cName i)).getD []) =
      [cName ((i + n - 1) % n)] := by
  show ((((cycleEdges n).foldl (fun m e => addEdgeTo m e.target e.source)
      ((cycleNodes n).foldl (fun m p => adjSet m p.1 []) (fun _ => none)))
        (cName i)).getD []) = _
  have hnd : ((cycleEdges n).map (fun e => e.target)).Nodup := by
    unfold cycleEdges
    rw [List.map_map]
    have h1 : ((fun e => PeerEdge.target e) ∘ fun i => mkEdgeFx (cName i) (cName ((i + 1) % n)))
        = fun i => cName ((i + 1) % n) := rfl
    rw [h1]
    refine List.Nodup.map_on ?_ (List.nodup_range n)
    intro a ha b hb hab
    exact succ_mod_inj n a b (List.mem_range.1 ha) (List.mem_range.1 hb) (cName_inj hab)
  have hj : (i + n - 1) % n < n := Nat.mod_lt _ (by omega)
  have hmem0 : mkEdgeFx (cName ((i + n - 1) % n))
      (cName (((i + n - 1) % n + 1) % n)) ∈ cycleEdges n :=
    List.mem_map.2 ⟨(i + n - 1) % n, List.mem_range.2 hj, rfl⟩
  have htgt : (mkEdgeFx (cName ((i + n - 1) % n))
      (cName (((i + n - 1) % n + 1) % n))).target = cName i := by
    show cName (((i + n - 1) % n + 1) % n) = cName i
    rw [pred_succ_mod n i hn hi]
  exact addFold_getD_single (fun e => e.target) (fun e => e.source) (cycleEdges n)
    _ (cName i) _ hnd hmem0 htgt (initFold_getD (cycleNodes n) (fun _ => none) (fun _ => rfl) (cName i))

/-- The undirected neighbors of a cycle node: successor then
predecessor. -/
theorem cycle_neighbors (n i : Nat) (hn : 3 ≤ n) (hi : i < n) :
    getNeighbors (cycleGraph n) (cName i) =
      [cName ((i + 1) % n), cName ((i + n - 1) % n)] := by
  have hne : cName ((i + 1) % n) ≠ cName ((i + n - 1) % n) := by
    intro h
    have h2 : (i + 1) % n = (i + n - 1) % n := cName_inj h
    have h3 : ((i + 1) % n + 1) % n = ((i + n - 1) % n + 1) % n := by rw [h2]
    rw [Nat.mod_add_mod, pred_succ_mod n i (by omega) hi] at h3
    rcases Nat.lt_or_ge (i + 2) n with hb | hb
    · rw [Nat.mod_eq_of_lt hb] at h3
      omega
    · have hb2 : i + 2 - n < n := by omega
      rw [Nat.mod_eq_sub_mod hb, Nat.mod_eq_of_lt hb2] at h3
      omega
  unfold getNeighbors
  rw [cycle_adj n i hi, cycle_radj n i (by omega) hi]
  show jsDedupGo [] [cName ((i + 1) % n), cName ((i + n - 1) % n)] = _
  unfold jsDedupGo
  rw [if_neg (List.not_mem_nil _)]
  unfold jsDedupGo
  rw [if_neg (fun hm => hne (List.mem_singleton.1 hm).symm)]
  rfl

/-- A non-cycle address has no neighbors in the cycle graph. -/
theorem cycle_neighbors_outside (n : Nat) (u : String)
    (hu : ∀ i, i < n → u ≠ cName i) : getNeighbors (cycleGraph n) u = [] := by
  have h1 : (cycleGraph n).adjacencyList u = none := by
    show (buildGraph (cycleNodes n) (cycleEdges n)).adjacencyList u = none
    apply buildGraph_adj_none
    · rw [cycle_keys]
      intro hm
      rcases List.mem_map.1 hm with ⟨i, hir, hcn⟩
      exact hu i (List.mem_range.1 hir) hcn.symm
    · intro e he
      rcases List.mem_map.1 he with ⟨i, hir, rfl⟩
      exact fun h => hu i (List.mem_range.1 hir) h.symm
  have h2 : (cycleGraph n).reverseAdjacencyList u = none := by
    show (buildGraph (cycleNodes n) (cycleEdges n)).reverseAdjacencyList u = none
    apply buildGraph_radj_none
    · rw [cycle_keys]
      intro hm
      rcases List.mem_map.1 hm with ⟨i, hir, hcn⟩
      exact hu i (List.mem_range.1 hir) hcn.symm
    · intro e he
      rcases List.mem_map.1 he with ⟨i, hir, rfl⟩
      have hlt : (i + 1) % n < n :=
        Nat.mod_lt _ (by have := List.mem_range.1 hir; omega)
      exact fun h => hu _ hlt h.symm
  unfold getNeighbors
  rw [h1, h2]
  rfl

/-- The rotation is a graph symmetry: it commutes with the neighbor
lists. -/
theorem cycle_rot_neighbors (n : Nat) (hn : 3 ≤ n) (u : String) :
    getNeighbors (cycleGraph n) (rotFun n u) =
      (getNeighbors (cycleGraph n) u).map (rotFun n) := by
  by_cases hu : ∃ i, i < n ∧ u = cName i
  · obtain ⟨i, hi, rfl⟩ := hu
    have hin : 0 < n := by omega
    have hi1 : (i + 1) % n < n := Nat.mod_lt _ hin
    have hi2 : (i + n - 1) % n < n := Nat.mod_lt _ hin
    rw [rotFun_cName n i hi, cycle_neighbors n i hn hi,
      cycle_neighbors n ((i + 1) % n) hn hi1]
    rw [List.map_cons, List.map_cons, List.map_nil]
    rw [rotFun_cName n ((i + 1) % n) hi1, rotFun_cName n ((i + n - 1) % n) hi2]
    have hL : ((i + 1) % n + n - 1) % n = i := by
      have h0 : (i + 1) % n + n - 1 = (i + 1) % n + (n - 1) := by omega
      rw [h0, Nat.mod_add_mod]
      have h1 : i + 1 + (n - 1) = i + n := by omega
      rw [h1, Nat.add_mod_right]
      exact Nat.mod_eq_of_lt hi
    have hR : ((i + n - 1) % n + 1) % n = i := pred_succ_mod n i (by omega) hi
    rw [hL, hR]
  · have hu2 : ∀ i, i < n → u ≠ cName i := fun i hi h => hu ⟨i, hi, h⟩
    rw [rotFun_outside n u hu2, cycle_neighbors_outside n u hu2]
    rfl

/-- The rotation preserves membership in the cycle's key list. -/
theorem rot_mem_keys (n : Nat) (x : String) :
    rotFun n x ∈ (List.range n).map cName ↔ x ∈ (List.range n).map cName := by
  by_cases hx : ∃ i, i < n ∧ x = cName i
  · obtain ⟨i, hi, rfl⟩ := hx
    rw [rotFun_cName n i hi]
    constructor
    · intro _
      exact List.mem_map.2 ⟨i, List.mem_range.2 hi, rfl⟩
    · intro _
      exact List.mem_map.2 ⟨(i + 1) % n, List.mem_range.2 (Nat.mod_lt _ (by omega)), rfl⟩
  · have hx2 : ∀ i, i < n → x ≠ cName i := fun i hi h => hx ⟨i, hi, h⟩
    rw [rotFun_outside n x hx2]

/-- Closed form of a constant-writing initialization fold. -/
theorem foldl_updF_const {α : Type} (c : α) : ∀ (ks : List String) (m : String → α)
    (x : String), (ks.foldl (fun m k => updF m k c) m) x = if x ∈ ks then c else m x := by
  intro ks
  induction ks with
  | nil => intro m x; simp
  | cons k ks ih =>
    intro m x
    rw [List.foldl_cons, ih]
    by_cases hx : x ∈ ks
    · rw [if_pos hx, if_pos (List.mem_cons_of_mem k hx)]
    · rw [if_neg hx]
      unfold updF
      by_cases hxk : x = k
      · rw [if_pos hxk, if_pos (hxk ▸ List.mem_cons_self k ks)]
      · rw [if_neg hxk, if_neg (by
          intro hm
          rcases List.mem_cons.1 hm with h | h
          · exact hxk h
          · exact hx h)]

/-- The neighbor step transports along an injective renaming. -/
theorem bfsNeighborStep_equiv (r : String → String) (hr : Function.Injective r)
    (st st' : BrandesState) (h : BrandesRel r st st') (v w : String) :
    BrandesRel r (bfsNeighborStep st v w) (bfsNeighborStep st' (r v) (r w)) := by
  obtain ⟨hs, hq, hp, hsig, hd⟩ := h
  have hdv : (st'.dist (r v)).getD 0 = (st.dist v).getD 0 := by rw [hd v]
  by_cases hc1 : st.dist w = some (-1)
  · have hc1' : st'.dist (r w) = some (-1) := by rw [hd w]; exact hc1
    rw [bfsNeighborStep_eq_pos st v w hc1, bfsNeighborStep_eq_pos st' (r v) (r w) hc1']
    have ht1 : updF st.dist w (some ((st.dist v).getD 0 + 1)) w =
        some ((st.dist v).getD 0 + 1) := by
      unfold updF
      rw [if_pos rfl]
    have ht2 : updF st'.dist (r w) (some ((st'.dist (r v)).getD 0 + 1)) (r w) =
        some ((st'.dist (r v)).getD 0 + 1) := by
      unfold updF
      rw [if_pos rfl]
    rw [if_pos ht1, if_pos ht2]
    refine ⟨hs, ?_, ?_, ?_, ?_⟩
    · show st'.queue ++ [r w] = (st.queue ++ [w]).map r
      rw [List.map_append, hq]
      rfl
    · intro x
      show updF st'.preds (r w) (st'.preds (r w) ++ [r v]) (r x) =
        (updF st.preds w (st.preds w ++ [v]) x).map r
      unfold updF
      by_cases hx : x = w
      · subst hx
        rw [if_pos rfl, if_pos rfl, List.map_append, hp x]
        rfl
      · rw [if_neg (fun hh => hx (hr hh)), if_neg hx]
        exact hp x
    · intro x
      show updF st'.sigma (r w) (st'.sigma (r w) + st'.sigma (r v)) (r x) =
        updF st.sigma w (st.sigma w + st.sigma v) x
      unfold updF
      by_cases hx : x = w
      · subst hx
        rw [if_pos rfl, if_pos rfl, hsig x, hsig v]
      · rw [if_neg (fun hh => hx (hr hh)), if_neg hx]
        exact hsig x
    · intro x
      show updF st'.dist (r w) (some ((st'.dist (r v)).getD 0 + 1)) (r x) =
        updF st.dist w (some ((st.dist v).getD 0 + 1)) x
      unfold updF
      by_cases hx : x = w
      · subst hx
        rw [if_pos rfl, if_pos rfl, hdv]
      · rw [if_neg (fun hh => hx (hr hh)), if_neg hx]
        exact hd x
  · have hc1' : ¬ st'.dist (r w) = some (-1) := by rw [hd w]; exact hc1
    rw [bfsNeighborStep_eq_neg st v w hc1, bfsNeighborStep_eq_neg st' (r v) (r w) hc1']
    by_cases hc2 : st.dist w = some ((st.dist v).getD 0 + 1)
    · have hc2' : st'.dist (r w) = some ((st'.dist (r v)).getD 0 + 1) := by
        rw [hd w, hdv]
        exact hc2
      rw [if_pos hc2, if_pos hc2']
      refine ⟨hs, hq, ?_, ?_, hd⟩
      · intro x
        show updF st'.preds (r w) (st'.preds (r w) ++ [r v]) (r x) =
          (updF st.preds w (st.preds w ++ [v]) x).map r
        unfold updF
        by_cases hx : x = w
        · subst hx
          rw [if_pos rfl, if_pos rfl, List.map_append, hp x]
          rfl
        · rw [if_neg (fun hh => hx (hr hh)), if_neg hx]
          exact hp x
      · intro x
        show updF st'.sigma (r w) (st'.sigma (r w) + st'.sigma (r v)) (r x) =
          updF st.sigma w (st.sigma w + st.sigma v) x
        unfold updF
        by_cases hx : x = w
        · subst hx
          rw [if_pos rfl, if_pos rfl, hsig x, hsig v]
        · rw [if_neg (fun hh => hx (hr hh)), if_neg hx]
          exact hsig x
    · have hc2' : ¬ st'.dist (r w) = some ((st'.dist (r v)).getD 0 + 1) := by
        rw [hd w, hdv]
        exact hc2
      rw [if_neg hc2, if_neg hc2']
      exact ⟨hs, hq, hp, hsig, hd⟩

/-- The neighbor fold transports along an injective renaming. -/
theorem bfsFold_equiv (r : String → String) (hr : Function.Injective r) (v : String) :
    ∀ (ws : List String) (st st' : BrandesState), BrandesRel r st st' →
    BrandesRel r (ws.foldl (fun s w => bfsNeighborStep s v w) st)
      ((ws.map r).foldl (fun s w => bfsNeighborStep s (r v) w) st') := by
  intro ws
  induction ws with
  | nil => intro st st' h; exact h
  | cons w ws ih =>
    intro st st' h
    rw [List.map_cons, List.foldl_cons, List.foldl_cons]
    exact ih _ _ (bfsNeighborStep_equiv r hr st st' h v w)

/-- The BFS loop transports along an injective graph symmetry. -/
theorem bfsLoop_equiv (g : PeerGraph) (r : String → String) (hr : Function.Injective r)
    (hnb : ∀ u, getNeighbors g (r u) = (getNeighbors g u).map r) :
    ∀ (fuel : Nat) (st st' : BrandesState), BrandesRel r st st' →
    BrandesRel r (bfsLoop g fuel st) (bfsLoop g fuel st') := by
  intro fuel
  induction fuel with
  | zero => intro st st' h; exact h
  | succ f ih =>
    intro st st' h
    obtain ⟨hs, hq, hp, hsig, hd⟩ := h
    rw [bfsLoop_succ, bfsLoop_succ]
    cases hqe : st.queue with
    | nil =>
      have hqe' : st'.queue = [] := by rw [hq, hqe]; rfl
      rw [hqe']
      exact ⟨hs, hq, hp, hsig, hd⟩
    | cons v rest =>
      have hqe' : st'.queue = r v :: rest.map r := by rw [hq, hqe]; rfl
      rw [hqe']
      refine ih _ _ ?_
      have hmid : BrandesRel r { st with queue := rest, stack := v :: st.stack }
          { st' with queue := rest.map r, stack := r v :: st'.stack } := by
        refine ⟨?_, rfl, hp, hsig, hd⟩
        show r v :: st'.stack = (v :: st.stack).map r
        rw [List.map_cons, hs]
      have := bfsFold_equiv r hr v (getNeighbors g v) _ _ hmid
      rw [← hnb v] at this
      exact this

/-- `updF` at the updated key. -/
theorem updF_self {α : Type} (m : String → α) (k : String) (v : α) :
    updF m k v k = v := if_pos rfl

/-- `updF` away from the updated key. -/
theorem updF_ne {α : Type} (m : String → α) (k : String) (v : α) (x : String)
    (h : x ≠ k) : updF m k v x = m x := if_neg h

/-- Step equation of the dependency accumulation on a nonempty stack. -/
theorem accumGo_cons (preds : String → List String) (sigma : String → ℚ) (s w : String)
    (rest : List String) (delta bw : String → ℚ) :
    accumGo preds sigma s (w :: rest) delta bw =
      accumGo preds sigma s rest
        ((preds w).foldl (fun d v => updF d v (d v + (sigma v / sigma w) * (1 + d w))) delta)
        (if w = s then bw
         else updF bw w (bw w + ((preds w).foldl
           (fun d v => updF d v (d v + (sigma v / sigma w) * (1 + d w))) delta) w)) := rfl

/-- The predecessor fold of the accumulation transports along an
injective renaming. -/
theorem accumPreds_equiv (r : String → String) (hr : Function.Injective r)
    (sigma sigma' : String → ℚ) (hsig : ∀ x, sigma' (r x) = sigma x) (w : String) :
    ∀ (ps : List String) (delta delta' : String → ℚ),
    (∀ x, delta' (r x) = delta x) →
    ∀ x, ((ps.map r).foldl
        (fun d v => updF d v (d v + (sigma' v / sigma' (r w)) * (1 + d (r w)))) delta') (r x) =
      (ps.foldl (fun d v => updF d v (d v + (sigma v / sigma w) * (1 + d w))) delta) x := by
  intro ps
  induction ps with
  | nil => intro delta delta' hrel x; exact hrel x
  | cons v ps ih =>
    intro delta delta' hrel x
    rw [List.map_cons, List.foldl_cons, List.foldl_cons]
    refine ih _ _ (fun y => ?_) x
    unfold updF
    by_cases hy : y = v
    · subst hy
      rw [if_pos rfl, if_pos rfl, hrel y, hsig y, hsig w, hrel w]
    · rw [if_neg (fun hh => hy (hr hh)), if_neg hy]
      exact hrel y

/-- The dependency accumulation transports along an injective renaming. -/
theorem accumGo_equiv (r : String → String) (hr : Function.Injective r)
    (preds preds' : String → List String) (hp : ∀ x, preds' (r x) = (preds x).map r)
    (sigma sigma' : String → ℚ) (hsig : ∀ x, sigma' (r x) = sigma x) (s : String) :
    ∀ (stack : List String) (delta delta' bw bw' : String → ℚ),
    (∀ x, delta' (r x) = delta x) → (∀ x, bw' (r x) = bw x) →
    ∀ x, (accumGo preds' sigma' (r s) (stack.map r) delta' bw').2 (r x) =
      (accumGo preds sigma s stack delta bw).2 x := by
  intro stack
  induction stack with
  | nil => intro delta delta' bw bw' _ hbw x; exact hbw x
  | cons w rest ih =>
    intro delta delta' bw bw' hdel hbw x
    rw [List.map_cons, accumGo_cons, accumGo_cons]
    have hdel2 : ∀ y, ((preds' (r w)).foldl
        (fun d v => updF d v (d v + (sigma' v / sigma' (r w)) * (1 + d (r w)))) delta') (r y) =
        ((preds w).foldl (fun d v => updF d v (d v + (sigma v / sigma w) * (1 + d w))) delta) y := by
      intro y
      rw [hp w]
      exact accumPreds_equiv r hr sigma sigma' hsig w (preds w) delta delta' hdel y
    refine ih _ _ _ _ hdel2 (fun y => ?_) x
    by_cases hws : w = s
    · rw [if_pos hws, if_pos (show r w = r s by rw [hws])]
      exact hbw y
    · rw [if_neg hws, if_neg (fun hh => hws (hr hh))]
      by_cases hy : y = w
      · subst hy
        rw [updF_self, updF_self, hbw y, hdel2 y]
      · rw [updF_ne _ _ _ _ (fun hh => hy (hr hh)), updF_ne _ _ _ _ hy]
        exact hbw y

/-- The accumulation only adds to the running betweenness map. -/
theorem accumGo_bw_add (preds : String → List String) (sigma : String → ℚ) (s : String) :
    ∀ (stack : List String) (delta bw1 bw2 : String → ℚ) (x : String),
    (accumGo preds sigma s stack delta (fun y => bw1 y + bw2 y)).2 x =
      bw1 x + (accumGo preds sigma s stack delta bw2).2 x := by
  intro stack
  induction stack with
  | nil => intro delta bw1 bw2 x; rfl
  | cons w rest ih =>
    intro delta bw1 bw2 x
    simp only [accumGo_cons]
    by_cases hws : w = s
    · rw [if_pos hws, if_pos hws]
      exact ih _ bw1 bw2 x
    · rw [if_neg hws, if_neg hws]
      have h4 : updF (fun y => bw1 y + bw2 y) w
          (bw1 w + bw2 w + ((preds w).foldl
            (fun d v => updF d v (d v + (sigma v / sigma w) * (1 + d w))) delta) w) =
          (fun y => bw1 y + (updF bw2 w (bw2 w + ((preds w).foldl
            (fun d v => updF d v (d v + (sigma v / sigma w) * (1 + d w))) delta) w)) y) := by
        funext y
        by_cases hy : y = w
        · subst hy
          rw [updF_self, updF_self]
          ring
        · exact (updF_ne _ _ _ _ hy).trans
            (congrArg (fun t => bw1 y + t) (updF_ne _ _ _ _ hy)).symm
      rw [h4]
      exact ih _ bw1 _ x

/-- One Brandes source run adds exactly its zero-started contribution to
the running betweenness map. -/
theorem brandesSource_add (g : PeerGraph) (ks : List String) (bw : String → ℚ)
    (s x : String) :
    brandesSource g ks bw s x = bw x + brandesContrib g ks s x := by
  have hbw : bw = (fun y => bw y + (fun _ => (0:ℚ)) y) := funext fun y => by simp
  conv_lhs => rw [hbw]
  simp only [brandesContrib, brandesSource]
  exact accumGo_bw_add _ _ _ _ _ bw (fun _ => 0) x

/-- Folding the Brandes source runs over a source list adds the sum of
the individual contributions. -/
theorem brandes_fold_sum (g : PeerGraph) (ks : List String) :
    ∀ (ss : List String) (bw : String → ℚ) (x : String),
    (ss.foldl (fun b s => brandesSource g ks b s) bw) x =
      bw x + ((ss.map (fun s => brandesContrib g ks s x)).sum) := by
  intro ss
  induction ss with
  | nil => intro bw x; simp
  | cons s ss ih =>
    intro bw x
    rw [List.foldl_cons]
    show (ss.foldl (fun b s => brandesSource g ks b s) (brandesSource g ks bw s)) x =
      bw x + ((s :: ss).map (fun s => brandesContrib g ks s x)).sum
    rw [ih, brandesSource_add, List.map_cons, List.sum_cons]
    ring

/-- `calculateBetweennessCentrality` is the sum of per-source
contributions times the normalization factor. -/
theorem betweenness_eq_sum (g : PeerGraph) (x : String) :
    calculateBetweennessCentrality g x =
      (((keysOf g.nodeData).map
        (fun s => brandesContrib g (keysOf g.nodeData) s x)).sum) *
      (if 2 < (keysOf g.nodeData).length then
        2 / ((((keysOf g.nodeData).length : ℚ) - 1) *
          (((keysOf g.nodeData).length : ℚ) - 2))
      else 1) := by
  simp only [calculateBetweennessCentrality]
  rw [brandes_fold_sum, foldl_updF_const]
  have h0 : (if x ∈ keysOf g.nodeData then (0:ℚ) else (fun _ => (0:ℚ)) x) = 0 := by
    split <;> rfl
  rw [h0, zero_add]

/-- A zero-started source contribution transports along an injective
renaming that is a neighbor-map symmetry fixing the key list. -/
theorem brandesContrib_equiv (g : PeerGraph) (ks : List String) (r : String → String)
    (hr : Function.Injective r)
    (hnb : ∀ u, getNeighbors g (r u) = (getNeighbors g u).map r)
    (hks : ∀ x, r x ∈ ks ↔ x ∈ ks) (s x : String) :
    brandesContrib g ks (r s) (r x) = brandesContrib g ks s x := by
  simp only [brandesContrib, brandesSource]
  have hinit : BrandesRel r
      { stack := [], preds := ks.foldl (fun m k => updF m k []) (fun _ => []),
        sigma := updF (ks.foldl (fun m k => updF m k 0) (fun _ => 0)) s 1,
        dist := updF (ks.foldl (fun m k => updF m k (some (-1))) (fun _ => none)) s (some 0),
        queue := [s] }
      { stack := [], preds := ks.foldl (fun m k => updF m k []) (fun _ => []),
        sigma := updF (ks.foldl (fun m k => updF m k 0) (fun _ => 0)) (r s) 1,
        dist := updF (ks.foldl (fun m k => updF m k (some (-1))) (fun _ => none)) (r s)
          (some 0),
        queue := [r s] } := by
    refine ⟨rfl, rfl, ?_, ?_, ?_⟩
    · intro y
      dsimp only
      rw [foldl_updF_const, foldl_updF_const]
      by_cases hy : y ∈ ks
      · rw [if_pos ((hks y).2 hy), if_pos hy]
        rfl
      · rw [if_neg (fun hh => hy ((hks y).1 hh)), if_neg hy]
        rfl
    · intro y
      dsimp only
      by_cases hy : y = s
      · rw [hy, updF_self, updF_self]
      · rw [updF_ne _ _ _ _ (fun hh => hy (hr hh)), updF_ne _ _ _ _ hy,
          foldl_updF_const, foldl_updF_const]
        by_cases hm : y ∈ ks
        · rw [if_pos ((hks y).2 hm), if_pos hm]
        · rw [if_neg (fun hh => hm ((hks y).1 hh)), if_neg hm]
    · intro y
      dsimp only
      by_cases hy : y = s
      · rw [hy, updF_self, updF_self]
      · rw [updF_ne _ _ _ _ (fun hh => hy (hr hh)), updF_ne _ _ _ _ hy,
          foldl_updF_const, foldl_updF_const]
        by_cases hm : y ∈ ks
        · rw [if_pos ((hks y).2 hm), if_pos hm]
        · rw [if_neg (fun hh => hm ((hks y).1 hh)), if_neg hm]
  have hloop := bfsLoop_equiv g r hr hnb ks.length _ _ hinit
  obtain ⟨hs2, hq2, hp2, hsig2, hd2⟩ := hloop
  rw [hs2]
  have hdel0 : ∀ y, (ks.foldl (fun m k => updF m k (0:ℚ)) (fun _ => 0)) (r y) =
      (ks.foldl (fun m k => updF m k (0:ℚ)) (fun _ => 0)) y := by
    intro y
    rw [foldl_updF_const, foldl_updF_const]
    by_cases hm : y ∈ ks
    · rw [if_pos ((hks y).2 hm), if_pos hm]
    · rw [if_neg (fun hh => hm ((hks y).1 hh)), if_neg hm]
  exact accumGo_equiv r hr _ _ hp2 _ _ hsig2 s _ _ _ _ _ hdel0 (fun y => rfl) x

/-- The registry keys of the built n-cycle are the n cycle names. -/
theorem cycle_graph_keys (n : Nat) :
    keysOf (cycleGraph n).nodeData = (List.range n).map cName := cycle_keys n

/-- The rotation preserves membership in the n-cycle registry keys. -/
theorem cycle_rot_keys (n : Nat) (x : String) :
    rotFun n x ∈ keysOf (cycleGraph n).nodeData ↔
      x ∈ keysOf (cycleGraph n).nodeData := by
  rw [cycle_graph_keys]
  exact rot_mem_keys n x

/-- Per-source contributions on the n-cycle transport along the rotation. -/
theorem cycle_contrib_rot (n : Nat) (hn : 3 ≤ n) (s x : String) :
    brandesContrib (cycleGraph n) (keysOf (cycleGraph n).nodeData)
        (rotFun n s) (rotFun n x) =
      brandesContrib (cycleGraph n) (keysOf (cycleGraph n).nodeData) s x :=
  brandesContrib_equiv (cycleGraph n) _ (rotFun n) (rotFun_inj n)
    (cycle_rot_neighbors n hn) (cycle_rot_keys n) s x

/-- The rotation permutes the n cycle names. -/
theorem cycle_rot_perm (n : Nat) (hn : 1 ≤ n) :
    (((List.range n).map cName).map (rotFun n)).Perm ((List.range n).map cName) := by
  have hnd : ((List.range n).map cName).Nodup :=
    (List.nodup_range n).map (fun a b h => cName_inj h)
  have hnd2 : (((List.range n).map cName).map (rotFun n)).Nodup := hnd.map (rotFun_inj n)
  refine (List.perm_ext_iff_of_nodup hnd2 hnd).2 ?_
  intro a
  constructor
  · intro ha
    rw [List.mem_map] at ha
    obtain ⟨b, hb, rfl⟩ := ha
    rw [List.mem_map] at hb
    obtain ⟨i, hi, rfl⟩ := hb
    rw [List.mem_range] at hi
    rw [rotFun_cName n i hi]
    exact List.mem_map.2 ⟨(i + 1) % n, List.mem_range.2 (Nat.mod_lt _ (by omega)), rfl⟩
  · intro ha
    rw [List.mem_map] at ha
    obtain ⟨j, hj, rfl⟩ := ha
    rw [List.mem_range] at hj
    refine List.mem_map.2 ⟨cName ((j + n - 1) % n), ?_, ?_⟩
    · exact List.mem_map.2
        ⟨(j + n - 1) % n, List.mem_range.2 (Nat.mod_lt _ (by omega)), rfl⟩
    · rw [rotFun_cName n _ (Nat.mod_lt _ (by omega)), pred_succ_mod n j hn hj]

/-- Betweenness on the n-cycle is invariant under the rotation. -/
theorem cycle_bc_rot (n : Nat) (hn : 3 ≤ n) (x : String) :
    calculateBetweennessCentrality (cycleGraph n) (rotFun n x) =
      calculateBetweennessCentrality (cycleGraph n) x := by
  have hperm0 : ((keysOf (cycleGraph n).nodeData).map (rotFun n)).Perm
      (keysOf (cycleGraph n).nodeData) := by
    rw [cycle_graph_keys]
    exact cycle_rot_perm n (by omega)
  have hfun : (fun s => brandesContrib (cycleGraph n) (keysOf (cycleGraph n).nodeData) s
        (rotFun n x)) ∘ (rotFun n) =
      (fun t => brandesContrib (cycleGraph n) (keysOf (cycleGraph n).nodeData) t x) :=
    funext fun t => cycle_contrib_rot n hn t x
  rw [betweenness_eq_sum, betweenness_eq_sum]
  congr 1
  have h1 := (hperm0.map (fun s => brandesContrib (cycleGraph n)
    (keysOf (cycleGraph n).nodeData) s (rotFun n x))).sum_eq
  rw [← h1, List.map_map, hfun]

/-- Every cycle name gets the same betweenness as name 0. -/
theorem cycle_bc_all_eq (n : Nat) (hn : 3 ≤ n) :
    ∀ i, i < n → calculateBetweennessCentrality (cycleGraph n) (cName i) =
      calculateBetweennessCentrality (cycleGraph n) (cName 0) := by
  intro i
  induction i with
  | zero => intro _; rfl
  | succ k ih =>
    intro hk
    have hk2 : k < n := by omega
    have hrot := cycle_bc_rot n hn (cName k)
    rw [rotFun_cName n k hk2, Nat.mod_eq_of_lt hk] at hrot
    rw [hrot]
    exact ih hk2

/-- C7: `calculateBetweennessCentrality` (Brandes over the undirected
unit-weight view, normalized by `2/((n−1)(n−2))` for `n > 2`, else by 1)
returns a nonnegative value for every graph and every node; and on the
symmetric n-cycle with `n ≥ 4` (each cycle edge present in one
direction) every node receives the same betweenness value. -/
theorem betweenness_spec :
    (∀ (g : PeerGraph) (x : String), 0 ≤ calculateBetweennessCentrality g x) ∧
    (∀ n, 4 ≤ n → ∀ i j, i < n → j < n →
      calculateBetweennessCentrality (cycleGraph n) (cName i) =
        calculateBetweennessCentrality (cycleGraph n) (cName j)) := by
  constructor
  · intro g x
    exact betweenness_nonneg g x
  · intro n hn i j hi hj
    have h3 : 3 ≤ n := by omega
    rw [cycle_bc_all_eq n h3 i hi, cycle_bc_all_eq n h3 j hj]

/-- C7 witness: the 4-cycle at concrete nodes. -/
theorem betweenness_spec_witness :
    (0 : ℚ) ≤ calculateBetweennessCentrality (cycleGraph 4) (cName 0) ∧
    calculateBetweennessCentrality (cycleGraph 4) (cName 0) =
      calculateBetweennessCentrality (cycleGraph 4) (cName 1) :=
  ⟨betweenness_spec.1 (cycleGraph 4) (cName 0),
   betweenness_spec.2 4 (by decide) 0 1 (by decide) (by decide)⟩
